import Mathlib

/-!
Verification of the search-engine and rating core of the ai-chess-experiments
repository, as a shallow embedding in Lean 4.

The chess rules engine (python-chess) is an external collaborator: it is
modelled by the oracle structure `Chess`, whose fields are exactly the
queries the embedded code performs (legal-move enumeration, push/pop,
terminal-state and check queries, piece placement, FEN hashing).  The
engine and evaluator code is translated function by function from

  backend/ai_chess_experiments/engines/heuristics.py
  backend/ai_chess_experiments/engines/minimax_engine.py
  backend/ai_chess_experiments/engines/negamax_engine.py
  backend/ai_chess_experiments/engines/iterative_deepening_engine.py
  backend/ai_chess_experiments/engines/quiescence_engine.py
  backend/ai_chess_experiments/engines/mcts_engine.py
  backend/ai_chess_experiments/glicko2.py

Python float scores are modelled by exact rationals; the float infinities
used as alpha/beta sentinels are modelled by the extended type `XQ`.
Wall-clock polling in the iterative-deepening engine is modelled by a
monotone boolean schedule sampled at successive ticks; randomness in MCTS
is modelled by explicit oracle functions threaded through a generator
state.  The Glicko-2 arithmetic is modelled over the real numbers.
-/

/-- Extended rationals with the two float infinities, used for the
`float(\x7b'-inf'\x7d)` / `float('inf')` sentinels of the Python search code. -/
inductive XQ : Type where
  | negInf : XQ
  | fin : ℚ → XQ
  | posInf : XQ
deriving DecidableEq

namespace XQ

/-- Strict comparison, matching IEEE comparison of floats with infinities. -/
def lt : XQ → XQ → Bool
  | negInf, negInf => false
  | negInf, _ => true
  | fin _, negInf => false
  | fin p, fin q => decide (p < q)
  | fin _, posInf => true
  | posInf, _ => false

/-- Non-strict comparison. -/
def le (x y : XQ) : Bool := !lt y x

/-- Negation, swapping the infinities. -/
def neg : XQ → XQ
  | negInf => posInf
  | fin p => fin (-p)
  | posInf => negInf

/-- Python `max(a, b)`. -/
def max (x y : XQ) : XQ := if lt x y then y else x

/-- Python `min(a, b)`. -/
def min (x y : XQ) : XQ := if lt y x then y else x

end XQ

/-- Chess piece kinds, mirroring python-chess piece types. -/
inductive PieceType : Type where
  | pawn | knight | bishop | rook | queen | king
deriving DecidableEq

/-- A piece: a kind together with its colour (`true` = white), mirroring
python-chess `Piece`. -/
structure Piece : Type where
  kind : PieceType
  color : Bool
deriving DecidableEq

/-- The Position Oracle: the queries that the embedded engine code performs
against the external chess library.  `B` is the board type, `M` the move
type; squares are numbered 0..63 as in python-chess (0 = a1). -/
structure Chess (B : Type) (M : Type) : Type where
  legalMoves : B → List M
  push : B → M → B
  pushNull : B → B
  pop : B → B
  isGameOver : B → Bool
  isCheckmate : B → Bool
  isStalemate : B → Bool
  isInsufficientMaterial : B → Bool
  turn : B → Bool
  pieceAt : B → Nat → Option Piece
  pieces : B → PieceType → Bool → List Nat
  king : B → Bool → Option Nat
  fenHash : B → Nat
  isCapture : B → M → Bool
  givesCheck : B → M → Bool
  promotionOf : M → Option PieceType
  moveFrom : M → Nat
  moveTo : M → Nat

/-- PIECE_VALUES from heuristics.py (centipawns). -/
def pieceValue : PieceType → Int
  | .pawn => 100
  | .knight => 320
  | .bishop => 330
  | .rook => 500
  | .queen => 900
  | .king => 20000

/-- PAWN_TABLE from heuristics.py. -/
def pawnTable : List Int :=
  [0,  0,  0,  0,  0,  0,  0,  0,
   50, 50, 50, 50, 50, 50, 50, 50,
   10, 10, 20, 30, 30, 20, 10, 10,
   5,  5, 10, 25, 25, 10,  5,  5,
   0,  0,  0, 20, 20,  0,  0,  0,
   5, -5,-10,  0,  0,-10, -5,  5,
   5, 10, 10,-20,-20, 10, 10,  5,
   0,  0,  0,  0,  0,  0,  0,  0]

/-- KNIGHT_TABLE from heuristics.py. -/
def knightTable : List Int :=
  [-50,-40,-30,-30,-30,-30,-40,-50,
   -40,-20,  0,  0,  0,  0,-20,-40,
   -30,  0, 10, 15, 15, 10,  0,-30,
   -30,  5, 15, 20, 20, 15,  5,-30,
   -30,  0, 15, 20, 20, 15,  0,-30,
   -30,  5, 10, 15, 15, 10,  5,-30,
   -40,-20,  0,  5,  5,  0,-20,-40,
   -50,-40,-30,-30,-30,-30,-40,-50]

/-- BISHOP_TABLE from heuristics.py. -/
def bishopTable : List Int :=
  [-20,-10,-10,-10,-10,-10,-10,-20,
   -10,  0,  0,  0,  0,  0,  0,-10,
   -10,  0,  5, 10, 10,  5,  0,-10,
   -10,  5,  5, 10, 10,  5,  5,-10,
   -10,  0, 10, 10, 10, 10,  0,-10,
   -10, 10, 10, 10, 10, 10, 10,-10,
   -10,  5,  0,  0,  0,  0,  5,-10,
   -20,-10,-10,-10,-10,-10,-10,-20]

/-- ROOK_TABLE from heuristics.py. -/
def rookTable : List Int :=
  [0,  0,  0,  0,  0,  0,  0,  0,
   5, 10, 10, 10, 10, 10, 10,  5,
   -5,  0,  0,  0,  0,  0,  0, -5,
   -5,  0,  0,  0,  0,  0,  0, -5,
   -5,  0,  0,  0,  0,  0,  0, -5,
   -5,  0,  0,  0,  0,  0,  0, -5,
   -5,  0,  0,  0,  0,  0,  0, -5,
   0,  0,  0,  5,  5,  0,  0,  0]

/-- QUEEN_TABLE from heuristics.py. -/
def queenTable : List Int :=
  [-20,-10,-10, -5, -5,-10,-10,-20,
   -10,  0,  0,  0,  0,  0,  0,-10,
   -10,  0,  5,  5,  5,  5,  0,-10,
   -5,  0,  5,  5,  5,  5,  0, -5,
   0,  0,  5,  5,  5,  5,  0, -5,
   -10,  5,  5,  5,  5,  5,  0,-10,
   -10,  0,  5,  0,  0,  0,  0,-10,
   -20,-10,-10, -5, -5,-10,-10,-20]

/-- KING_MIDDLE_TABLE from heuristics.py. -/
def kingMiddleTable : List Int :=
  [-30,-40,-40,-50,-50,-40,-40,-30,
   -30,-40,-40,-50,-50,-40,-40,-30,
   -30,-40,-40,-50,-50,-40,-40,-30,
   -30,-40,-40,-50,-50,-40,-40,-30,
   -20,-30,-30,-40,-40,-30,-30,-20,
   -10,-20,-20,-20,-20,-20,-20,-10,
   20, 20,  0,  0,  0,  0, 20, 20,
   20, 30, 10,  0,  0, 10, 30, 20]

/-- KING_END_TABLE from heuristics.py. -/
def kingEndTable : List Int :=
  [-50,-40,-30,-20,-20,-30,-40,-50,
   -30,-20,-10,  0,  0,-10,-20,-30,
   -30,-10, 20, 30, 30, 20,-10,-30,
   -30,-10, 30, 40, 40, 30,-10,-30,
   -30,-10, 30, 40, 40, 30,-10,-30,
   -30,-10, 20, 30, 30, 20,-10,-30,
   -30,-30,  0,  0,  0,  0,-30,-30,
   -50,-30,-30,-30,-30,-30,-30,-50]

/-- PIECE_SQUARE_TABLES lookup (the king defaults to the middlegame table). -/
def pieceSquareTable : PieceType → List Int
  | .pawn => pawnTable
  | .knight => knightTable
  | .bishop => bishopTable
  | .rook => rookTable
  | .queen => queenTable
  | .king => kingMiddleTable

/-- chess.square_mirror: flip a square vertically (xor with 56). -/
def squareMirror (sq : Nat) : Nat := sq ^^^ 56

/-- chess.square_file. -/
def squareFile (sq : Nat) : Nat := sq % 8

/-- chess.square_rank. -/
def squareRank (sq : Nat) : Nat := sq / 8

/-- get_piece_value from heuristics.py: base value plus piece-square table
entry (mirrored for black; king switches to the endgame table). -/
def getPieceValue (p : Piece) (sq : Nat) (endgame : Bool) : Int :=
  let idx := if p.color then sq else squareMirror sq
  let tbl := if p.kind = .king ∧ endgame then kingEndTable else pieceSquareTable p.kind
  pieceValue p.kind + tbl.getD idx 0

/-- is_endgame from heuristics.py: no queens, or exactly two queens with at
most two minor pieces in total. -/
def isEndgame {B M : Type} (O : Chess B M) (b : B) : Bool :=
  let queens := (O.pieces b .queen true).length + (O.pieces b .queen false).length
  let minors := (O.pieces b .knight true).length + (O.pieces b .bishop true).length
      + (O.pieces b .knight false).length + (O.pieces b .bishop false).length
  decide (queens = 0) || (decide (queens = 2) && decide (minors ≤ 2))

/-- Material plus piece-square-table sum of evaluate_position: iterate the
64 squares, adding the signed piece value. -/
def materialTerm {B M : Type} (O : Chess B M) (b : B) (endgame : Bool) : Int :=
  (List.range 64).foldl
    (fun acc sq =>
      match O.pieceAt b sq with
      | none => acc
      | some p => if p.color then acc + getPieceValue p sq endgame
                  else acc - getPieceValue p sq endgame)
    0

/-- The mobility probe of evaluate_position: count legal moves, push a null
move to count the opponent moves, pop, weight the difference by 10.  The
board is threaded explicitly because the Python code mutates the caller
board and restores it with pop.  Returns the term and the board state
after the probe. -/
def mobilityTermSt {B M : Type} (O : Chess B M) (b : B) (endgame : Bool) : Int × B :=
  if endgame then (0, b)
  else
    let own := (O.legalMoves b).length
    let b1 := O.pushNull b
    let opp := (O.legalMoves b1).length
    let b2 := O.pop b1
    (((own : Int) - (opp : Int)) * 10, b2)

/-- Count of pawns of a square list lying on a given file. -/
def pawnsOnFile (pawns : List Nat) (file : Nat) : Nat :=
  (pawns.filter (fun sq => decide (squareFile sq = file))).length

/-- Doubled-pawn penalties of evaluate_position: minus 50 per extra white
pawn on a file, plus 50 per extra black pawn. -/
def doubledPawnTerm (whitePawns blackPawns : List Nat) : Int :=
  (List.range 8).foldl
    (fun acc file =>
      let wf := pawnsOnFile whitePawns file
      let bf := pawnsOnFile blackPawns file
      let acc1 := if wf > 1 then acc - ((wf : Int) - 1) * 50 else acc
      if bf > 1 then acc1 + ((bf : Int) - 1) * 50 else acc1)
    0

/-- Isolated-pawn penalties of evaluate_position: files 1..6 only, minus 30
per isolated white pawn file, plus 30 per isolated black one. -/
def isolatedPawnTerm (whitePawns blackPawns : List Nat) : Int :=
  (List.range 8).foldl
    (fun acc file =>
      if 0 < file ∧ file < 7 then
        let wIso := pawnsOnFile whitePawns file > 0
            ∧ pawnsOnFile whitePawns (file - 1) = 0
            ∧ pawnsOnFile whitePawns (file + 1) = 0
        let bIso := pawnsOnFile blackPawns file > 0
            ∧ pawnsOnFile blackPawns (file - 1) = 0
            ∧ pawnsOnFile blackPawns (file + 1) = 0
        let acc1 := if wIso then acc - 30 else acc
        if bIso then acc1 + 30 else acc1
      else acc)
    0

/-- The pawn-structure part of evaluate_position, reading the pawn square
sets from the oracle. -/
def pawnTerm {B M : Type} (O : Chess B M) (b : B) : Int :=
  let whitePawns := O.pieces b .pawn true
  let blackPawns := O.pieces b .pawn false
  doubledPawnTerm whitePawns blackPawns + isolatedPawnTerm whitePawns blackPawns

/-- Python truthiness of an optional square index: None is falsy and so is
square 0 (a1).  This is exactly the guard `if white_king_square and
black_king_square` of evaluate_position. -/
def truthySquare : Option Nat → Bool
  | none => false
  | some sq => decide (sq ≠ 0)

/-- King-safety term of evaluate_position (only outside the endgame):
penalise central files c..f, reward the home back rank.  The guard tests
the two king squares for Python truthiness. -/
def kingSafetyTerm {B M : Type} (O : Chess B M) (b : B) (endgame : Bool) : Int :=
  if endgame then 0
  else
    let wk := O.king b true
    let bk := O.king b false
    if truthySquare wk && truthySquare bk then
      match wk, bk with
      | some w, some bl =>
        let wFile := squareFile w
        let bFile := squareFile bl
        let wRank := squareRank w
        let bRank := squareRank bl
        let s1 : Int := if 2 < wFile ∧ wFile < 6 then -60 else 0
        let s2 : Int := if 2 < bFile ∧ bFile < 6 then s1 + 60 else s1
        let s3 : Int := if wRank = 0 then s2 + 40 else s2 - 20
        if bRank = 7 then s3 - 40 else s3 + 20
      | _, _ => 0
    else 0

/-- The anti-repetition jitter of evaluate_position:
`(hash(board.fen()) % 10) * 0.01`, with the runtime hash modelled as the
oracle field fenHash. -/
def hashJitter {B M : Type} (O : Chess B M) (b : B) : ℚ :=
  ((O.fenHash b % 10 : Nat) : ℚ) * (1 / 100)

/-- evaluate_position from heuristics.py, with the board state threaded
explicitly through the null-move mobility probe (the only mutation).
Checkmate returns the plus-or-minus 10000 sentinel against the side to
move; stalemate and insufficient material return 0; otherwise material,
mobility, pawn structure, king safety and the hash jitter are summed.
Queries after the mobility probe read the threaded (probed and popped)
board, exactly as the Python code reads its mutated-then-restored board. -/
def evaluatePositionSt {B M : Type} (O : Chess B M) (b : B) : ℚ × B :=
  if O.isCheckmate b then (if O.turn b then -10000 else 10000, b)
  else if O.isStalemate b || O.isInsufficientMaterial b then (0, b)
  else
    let endgame := isEndgame O b
    let mat := materialTerm O b endgame
    let (mob, b1) := mobilityTermSt O b endgame
    let pawns := pawnTerm O b1
    let kings := kingSafetyTerm O b1 endgame
    (((mat + mob + pawns + kings : Int) : ℚ) + hashJitter O b1, b1)

/-- evaluate_position as the pure score (the board is restored by the
probe whenever the oracle satisfies the pop/push law). -/
def evaluatePosition {B M : Type} (O : Chess B M) (b : B) : ℚ :=
  (evaluatePositionSt O b).1

/-- The maximizing loop of MinimaxEngine.minimax: fail-soft alpha-beta over
the legal moves, tracking the best move, raising alpha with each child
score and breaking once beta is not above alpha.  The child call receives
the current alpha (beta is fixed inside one node). -/
def mmMaxLoop {B M : Type} (O : Chess B M) (child : B → XQ → XQ) (b : B) :
    List M → Option M → XQ → XQ → XQ → Option M × XQ
  | [], best, maxEval, _, _ => (best, maxEval)
  | m :: ms, best, maxEval, alpha, beta =>
    let e := child (O.push b m) alpha
    let best1 := if XQ.lt maxEval e then some m else best
    let maxEval1 := XQ.max maxEval e
    let alpha1 := XQ.max alpha e
    if XQ.le beta alpha1 then (best1, maxEval1)
    else mmMaxLoop O child b ms best1 maxEval1 alpha1 beta

/-- The minimizing loop of MinimaxEngine.minimax, mirror image of
mmMaxLoop: lowers beta and breaks once beta is not above alpha. -/
def mmMinLoop {B M : Type} (O : Chess B M) (child : B → XQ → XQ) (b : B) :
    List M → Option M → XQ → XQ → XQ → Option M × XQ
  | [], best, minEval, _, _ => (best, minEval)
  | m :: ms, best, minEval, alpha, beta =>
    let e := child (O.push b m) beta
    let best1 := if XQ.lt e minEval then some m else best
    let minEval1 := XQ.min minEval e
    let beta1 := XQ.min beta e
    if XQ.le beta1 alpha then (best1, minEval1)
    else mmMinLoop O child b ms best1 minEval1 alpha beta1

/-- MinimaxEngine.minimax: alpha-beta minimax with an explicit maximizing
flag, returning the best move and the score.  The evaluator ev stands for
the engine's (white-positive) static evaluator; depth 0 or a finished game
returns the static evaluation with no move. -/
def mmSearch {B M : Type} (O : Chess B M) (ev : B → ℚ) :
    Nat → B → XQ → XQ → Bool → Option M × XQ
  | 0, b, _, _, _ => (none, .fin (ev b))
  | d + 1, b, alpha, beta, maximizing =>
    if O.isGameOver b then (none, .fin (ev b))
    else if maximizing then
      mmMaxLoop O (fun b1 a1 => (mmSearch O ev d b1 a1 beta false).2) b
        (O.legalMoves b) none .negInf alpha beta
    else
      mmMinLoop O (fun b1 b2 => (mmSearch O ev d b1 alpha b2 true).2) b
        (O.legalMoves b) none .posInf alpha beta

/-- The loop of NegamaxEngine._negamax: fail-soft negamax over the legal
moves, negating and swapping the window for the child, raising alpha with
the running value and breaking once alpha reaches beta. -/
def ngLoop {B M : Type} (O : Chess B M) (child : B → XQ → XQ → XQ) (b : B) :
    List M → XQ → XQ → XQ → XQ
  | [], value, _, _ => value
  | m :: ms, value, alpha, beta =>
    let v1 := XQ.max value (XQ.neg (child (O.push b m) (XQ.neg beta) (XQ.neg alpha)))
    let alpha1 := XQ.max alpha v1
    if XQ.le beta alpha1 then v1
    else ngLoop O child b ms v1 alpha1 beta

/-- NegamaxEngine._negamax: the leaf value is the white-positive evaluator
negated for black (mover perspective); otherwise the negamax loop. -/
def ngSearch {B M : Type} (O : Chess B M) (ev : B → ℚ) : Nat → B → XQ → XQ → XQ
  | 0, b, _, _ => .fin (ev b * (if O.turn b then 1 else -1))
  | d + 1, b, alpha, beta =>
    if O.isGameOver b then .fin (ev b * (if O.turn b then 1 else -1))
    else ngLoop O (fun b1 a1 b2 => ngSearch O ev d b1 a1 b2) b
      (O.legalMoves b) .negInf alpha beta

/-- The root loop of NegamaxEngine.get_move: like ngLoop but it also
tracks the best move and never breaks (beta stays at the infinity
sentinel, so the child window passed down is (negInf, neg alpha)). -/
def ngRootLoop {B M : Type} (O : Chess B M) (child : B → XQ → XQ) (b : B) :
    List M → Option M → XQ → XQ → Option M × XQ
  | [], best, bestValue, _ => (best, bestValue)
  | m :: ms, best, bestValue, alpha =>
    let v := XQ.neg (child (O.push b m) (XQ.neg alpha))
    let best1 := if XQ.lt bestValue v then some m else best
    let bestValue1 := XQ.max bestValue v
    let alpha1 := XQ.max alpha v
    ngRootLoop O child b ms best1 bestValue1 alpha1

/-- The root scan of NegamaxEngine.get_move over a position that is not
game over: returns the tracked best move and best value (the value is the
root value from the mover's perspective). -/
def ngRoot {B M : Type} (O : Chess B M) (ev : B → ℚ) (d : Nat) (b : B) : Option M × XQ :=
  ngRootLoop O (fun b1 a1 => ngSearch O ev (d - 1) b1 .negInf a1) b
    (O.legalMoves b) none .negInf .negInf

/-- NegamaxEngine.get_move: none when the game is over, else the best move
of the root scan (the Python method returns only the move, no score). -/
def ngGetMove {B M : Type} (O : Chess B M) (ev : B → ℚ) (d : Nat) (b : B) : Option M :=
  if O.isGameOver b then none else (ngRoot O ev d b).1

/-- One step of the deepening loop of MinimaxEngine._get_move_impl: run
minimax at depth i+1 with the maximizing flag set to the side to move and
keep the (move, score) pair when the move is not none. -/
def mmDeepenStep {B M : Type} (O : Chess B M) (ev : B → ℚ) (b : B)
    (acc : Option (M × XQ)) (i : Nat) : Option (M × XQ) :=
  let ms := mmSearch O ev (i + 1) b .negInf .posInf (O.turn b)
  match ms.1 with
  | some mv => some (mv, ms.2)
  | none => acc

/-- MinimaxEngine._get_move_impl: raises ValueError when the position has
no legal moves (modelled as Except.error); otherwise deepens from depth 1
to level, keeping the last (move, score) whose move is not none, and falls
back to a caller-supplied random choice with score 0 when every depth
returned none. -/
def mmGetMoveImpl {B M : Type} (O : Chess B M) (ev : B → ℚ) (pick : List M → M)
    (level : Nat) (b : B) : Except String (M × XQ) :=
  if (O.legalMoves b).isEmpty then Except.error "No legal moves available"
  else
    match (List.range level).foldl (mmDeepenStep O ev b) (none : Option (M × XQ)) with
    | some p => Except.ok p
    | none => Except.ok (pick (O.legalMoves b), .fin 0)

/-- State-threaded maximizing loop of MinimaxEngine.minimax: the board is
pushed before and popped after each recursive call, modelling the in-place
mutation of the shared board. -/
def mmMaxLoopSt {B M : Type} (O : Chess B M) (child : B → XQ → XQ × B) (b : B) :
    List M → Option M → XQ → XQ → XQ → (Option M × XQ) × B
  | [], best, maxEval, _, _ => ((best, maxEval), b)
  | m :: ms, best, maxEval, alpha, beta =>
    let c := child (O.push b m) alpha
    let b2 := O.pop c.2
    let best1 := if XQ.lt maxEval c.1 then some m else best
    let maxEval1 := XQ.max maxEval c.1
    let alpha1 := XQ.max alpha c.1
    if XQ.le beta alpha1 then ((best1, maxEval1), b2)
    else mmMaxLoopSt O child b2 ms best1 maxEval1 alpha1 beta

/-- State-threaded minimizing loop of MinimaxEngine.minimax. -/
def mmMinLoopSt {B M : Type} (O : Chess B M) (child : B → XQ → XQ × B) (b : B) :
    List M → Option M → XQ → XQ → XQ → (Option M × XQ) × B
  | [], best, minEval, _, _ => ((best, minEval), b)
  | m :: ms, best, minEval, alpha, beta =>
    let c := child (O.push b m) beta
    let b2 := O.pop c.2
    let best1 := if XQ.lt c.1 minEval then some m else best
    let minEval1 := XQ.min minEval c.1
    let beta1 := XQ.min beta c.1
    if XQ.le beta1 alpha then ((best1, minEval1), b2)
    else mmMinLoopSt O child b2 ms best1 minEval1 alpha beta1

/-- MinimaxEngine.minimax with the shared mutable board made explicit:
every push is followed by the recursive call and then a pop, and the final
board state is returned alongside the result. -/
def mmSearchSt {B M : Type} (O : Chess B M) (ev : B → ℚ) :
    Nat → B → XQ → XQ → Bool → (Option M × XQ) × B
  | 0, b, _, _, _ => ((none, .fin (ev b)), b)
  | d + 1, b, alpha, beta, maximizing =>
    if O.isGameOver b then ((none, .fin (ev b)), b)
    else if maximizing then
      mmMaxLoopSt O
        (fun b1 a1 =>
          let s := mmSearchSt O ev d b1 a1 beta false
          (s.1.2, s.2)) b
        (O.legalMoves b) none .negInf alpha beta
    else
      mmMinLoopSt O
        (fun b1 b2 =>
          let s := mmSearchSt O ev d b1 alpha b2 true
          (s.1.2, s.2)) b
        (O.legalMoves b) none .posInf alpha beta

/-- The negamax loop inside IterativeDeepeningEngine._alphabeta (no time
test inside the loop; alpha raised, break once alpha reaches beta). -/
def idAbLoop {B M : Type} (O : Chess B M) (child : B → XQ → XQ → Nat → XQ × Nat) (b : B) :
    List M → XQ → XQ → XQ → Nat → XQ × Nat
  | [], value, _, _, t => (value, t)
  | m :: ms, value, alpha, beta, t =>
    let c := child (O.push b m) (XQ.neg beta) (XQ.neg alpha) t
    let v1 := XQ.max value (XQ.neg c.1)
    let alpha1 := XQ.max alpha v1
    if XQ.le beta alpha1 then (v1, c.2)
    else idAbLoop O child b ms v1 alpha1 beta c.2

/-- IterativeDeepeningEngine._alphabeta with the wall clock made explicit:
the boolean schedule clock is sampled at successive ticks t, one tick per
evaluation of the Python time-limit test.  The test is short-circuited, so
depth 0 and finished games consume no tick.  The leaf value is the
white-positive evaluator flipped to the mover's perspective. -/
def idAlphabeta {B M : Type} (O : Chess B M) (ev : B → ℚ) (clock : Nat → Bool) :
    Nat → B → XQ → XQ → Nat → XQ × Nat
  | 0, b, _, _, t => (.fin (ev b * (if O.turn b then 1 else -1)), t)
  | d + 1, b, alpha, beta, t =>
    if O.isGameOver b then (.fin (ev b * (if O.turn b then 1 else -1)), t)
    else if clock t then (.fin (ev b * (if O.turn b then 1 else -1)), t + 1)
    else idAbLoop O (fun b1 a1 b2 t1 => idAlphabeta O ev clock d b1 a1 b2 t1) b
      (O.legalMoves b) .negInf alpha beta (t + 1)

/-- The root-move loop of IterativeDeepeningEngine._alphabeta_root: the
time limit is tested before each root move (one tick) and the loop breaks
when it has expired, keeping the best move found so far at this depth;
beta stays at the infinity sentinel, so no beta break occurs. -/
def idRootLoop {B M : Type} (O : Chess B M) (clock : Nat → Bool)
    (child : B → XQ → Nat → XQ × Nat) (b : B) :
    List M → Option M → XQ → XQ → Nat → (XQ × Option M) × Nat
  | [], best, bestValue, _, t => ((bestValue, best), t)
  | m :: ms, best, bestValue, alpha, t =>
    if clock t then ((bestValue, best), t + 1)
    else
      let c := child (O.push b m) (XQ.neg alpha) (t + 1)
      let v := XQ.neg c.1
      let best1 := if XQ.lt bestValue v then some m else best
      let bestValue1 := XQ.max bestValue v
      let alpha1 := XQ.max alpha v
      idRootLoop O clock child b ms best1 bestValue1 alpha1 c.2

/-- IterativeDeepeningEngine._alphabeta_root at a given depth, starting
from tick t. -/
def idRootScan {B M : Type} (O : Chess B M) (ev : B → ℚ) (clock : Nat → Bool)
    (d : Nat) (b : B) (t : Nat) : (XQ × Option M) × Nat :=
  idRootLoop O clock (fun b1 a1 t1 => idAlphabeta O ev clock (d - 1) b1 .negInf a1 t1) b
    (O.legalMoves b) none .negInf .negInf t

/-- The depth loop of IterativeDeepeningEngine.get_move: one tick for the
time test at the head of each depth; a depth's scan overwrites the best
move whenever it found any move (even when the scan was interrupted). -/
def idDepthLoop {B M : Type} (O : Chess B M) (ev : B → ℚ) (clock : Nat → Bool) (b : B) :
    List Nat → Option M → Nat → Option M × Nat
  | [], best, t => (best, t)
  | d :: ds, best, t =>
    if clock t then (best, t + 1)
    else
      let s := idRootScan O ev clock d b (t + 1)
      let best1 := match s.1.2 with
        | some m => some m
        | none => best
      idDepthLoop O ev clock b ds best1 s.2

/-- IterativeDeepeningEngine.get_move: none when the game is over, else
deepen through depths 1..maxDepth under the clock schedule. -/
def idGetMove {B M : Type} (O : Chess B M) (ev : B → ℚ) (clock : Nat → Bool)
    (maxDepth : Nat) (b : B) : Option M :=
  if O.isGameOver b then none
  else (idDepthLoop O ev clock b ((List.range maxDepth).map (· + 1)) none 0).1

/-- QuiescenceEngine._move_value: promotions 10000; captures with both the
victim and the attacker visible on the board score victim minus attacker
plus 1000; otherwise (including en-passant captures, whose target square
is empty) checking moves score 500 and everything else 0. -/
def moveValue {B M : Type} (O : Chess B M) (b : B) (m : M) : Int :=
  if (O.promotionOf m).isSome then 10000
  else if O.isCapture b m then
    match O.pieceAt b (O.moveTo m), O.pieceAt b (O.moveFrom m) with
    | some victim, some attacker =>
      pieceValue victim.kind - pieceValue attacker.kind + 1000
    | _, _ => if O.givesCheck b m then 500 else 0
  else if O.givesCheck b m then 500 else 0

/-- Insert an element into an already sorted (descending) list, before the
first entry whose key is not larger: combined with sortByDesc this models
the stability of Python sorted. -/
def insertByDesc {α : Type} (val : α → Int) (x : α) : List α → List α
  | [] => [x]
  | y :: ys => if val x < val y then y :: insertByDesc val x ys else x :: y :: ys

/-- Python sorted(moves, key=val, reverse=True): a stable sort into
descending key order. -/
def sortByDesc {α : Type} (val : α → Int) : List α → List α
  | [] => []
  | x :: xs => insertByDesc val x (sortByDesc val xs)

/-- QuiescenceEngine._order_moves. -/
def orderMoves {B M : Type} (O : Chess B M) (b : B) (moves : List M) : List M :=
  sortByDesc (moveValue O b) moves

/-- The randomness the MCTS engine draws from the Python random module,
modelled as oracle functions over an explicit generator state R:
random.shuffle of the untried-move list and random.choice of a legal-move
list during rollouts. -/
structure MctsRand (M : Type) (R : Type) : Type where
  shuffle : R → List M → List M × R
  choice : R → List M → M × R

/-- The two transcendental float computations of the MCTS engine, modelled
as oracle functions: explore pv v stands for sqrt(log(pv) / v) in UCB1,
and sigmoid for x maps to 1 / (1 + exp(-x)) used to turn a centipawn
result into a win probability. -/
structure MctsNum : Type where
  explore : Nat → Nat → ℚ
  sigmoid : ℚ → ℚ

/-- MCTSNode: board snapshot, the move that created the node, the shuffled
untried moves, the children in creation order, the win accumulator and the
visit count.  The parent back-reference of the Python class is implicit in
the recursive traversal. -/
inductive MNode (B M : Type) : Type where
  | mk (board : B) (mv : Option M) (untried : List M) (children : List (MNode B M))
      (wins : ℚ) (visits : Nat)

/-- The board snapshot of a node. -/
def MNode.board {B M : Type} : MNode B M → B
  | .mk b _ _ _ _ _ => b

/-- The move that created a node (none for the root). -/
def MNode.mv {B M : Type} : MNode B M → Option M
  | .mk _ m _ _ _ _ => m

/-- The untried moves of a node. -/
def MNode.untried {B M : Type} : MNode B M → List M
  | .mk _ _ u _ _ _ => u

/-- The children of a node. -/
def MNode.children {B M : Type} : MNode B M → List (MNode B M)
  | .mk _ _ _ c _ _ => c

/-- The win accumulator of a node. -/
def MNode.wins {B M : Type} : MNode B M → ℚ
  | .mk _ _ _ _ w _ => w

/-- The visit count of a node. -/
def MNode.visits {B M : Type} : MNode B M → Nat
  | .mk _ _ _ _ _ v => v

/-- MCTSNode.__init__: fresh node with a shuffled copy of the legal moves
as untried moves and zeroed statistics. -/
def mkMNode {B M R : Type} (O : Chess B M) (rnd : MctsRand M R) (b : B)
    (mv : Option M) (r : R) : MNode B M × R :=
  let s := rnd.shuffle r (O.legalMoves b)
  (.mk b mv s.1 [] 0 0, s.2)

/-- MCTSNode.ucb1 of a child during selection: infinite when unvisited,
else win rate plus 1.414 times the exploration radical (the parent
back-reference is always present for a child). -/
def childUcb {B M : Type} (num : MctsNum) (parentVisits : Nat) (n : MNode B M) : XQ :=
  if n.visits = 0 then .posInf
  else .fin (n.wins / (n.visits : ℚ) + (1414 / 1000) * num.explore parentVisits n.visits)

/-- Python max(xs, key=...) over a nonempty list: the first element of
maximal key (later elements replace the current best only when strictly
greater). -/
def pyMaxBy {α : Type} (ltKey : α → α → Bool) : Nat → α → List α → Nat × α
  | i, x, [] => (i, x)
  | i, x, y :: ys =>
    let z := pyMaxBy ltKey (i + 1) y ys
    if ltKey x z.2 then z else (i, x)

/-- MCTSNode.rollout: random playout to a terminal position (or move
exhaustion), then the static heuristics evaluator.  The playout loop is
bounded by explicit fuel; for real chess it terminates via the
seventy-five-move rule, and every theorem below holds for all fuels. -/
def mctsRollout {B M R : Type} (O : Chess B M) (rnd : MctsRand M R) :
    Nat → B → R → ℚ × R
  | 0, b, r => (evaluatePosition O b, r)
  | fuel + 1, b, r =>
    if O.isGameOver b then (evaluatePosition O b, r)
    else
      let moves := O.legalMoves b
      if moves.isEmpty then (evaluatePosition O b, r)
      else
        let c := rnd.choice r moves
        mctsRollout O rnd fuel (O.push b c.1) c.2

/-- One iteration of the MCTS loop body in MCTSEngine.get_move: selection
by UCB1 (Python max takes the first maximal child) while no moves are
untried and children exist; expansion of the last untried move (list pop)
otherwise; rollout from the reached node; backpropagation along the
descent path with the result negated at each step up.  Returns the updated
subtree, the result this subtree root backpropagated with, and the
generator state. -/
def mctsIterate {B M R : Type} (O : Chess B M) (rnd : MctsRand M R) (num : MctsNum)
    (fuel : Nat) : MNode B M → R → (MNode B M × ℚ) × R
  | .mk b mv untried children wins visits, r =>
    match untried, children with
    | [], c0 :: cs =>
      match pyMaxBy
        (fun a b : {c // c ∈ c0 :: cs} =>
          XQ.lt (childUcb num visits a.1) (childUcb num visits b.1)) 0
        ⟨c0, List.mem_cons_self c0 cs⟩
        (cs.attach.map (fun c => ⟨c.1, List.mem_cons_of_mem c0 c.2⟩)) with
      | (i, c) =>
        let s := mctsIterate O rnd num fuel c.1 r
        let res := s.1.2
        ((.mk b mv [] ((c0 :: cs).set i s.1.1)
            (wins + num.sigmoid (-res / 100)) (visits + 1), -res), s.2)
    | untried0, children0 =>
      match untried0.reverse with
      | m :: restRev =>
        let c := mkMNode O rnd (O.push b m) (some m) r
        let roll := mctsRollout O rnd fuel (c.1.board) c.2
        let res := roll.1
        let child1 : MNode B M :=
          .mk c.1.board c.1.mv c.1.untried c.1.children
            (c.1.wins + num.sigmoid (res / 100)) (c.1.visits + 1)
        ((.mk b mv restRev.reverse (children0 ++ [child1])
            (wins + num.sigmoid (-res / 100)) (visits + 1), -res), roll.2)
      | [] =>
        let roll := mctsRollout O rnd fuel b r
        let res := roll.1
        ((.mk b mv untried0 children0
            (wins + num.sigmoid (res / 100)) (visits + 1), res), roll.2)
  termination_by n _ => sizeOf n
  decreasing_by
    have h := List.sizeOf_lt_of_mem c.2
    simp only [MNode.mk.sizeOf_spec]
    omega

/-- The simulation loop of MCTSEngine.get_move, run for a fixed number of
iterations (the wall-clock budget expires after that many loop tests). -/
def mctsLoop {B M R : Type} (O : Chess B M) (rnd : MctsRand M R) (num : MctsNum)
    (fuel : Nat) : Nat → MNode B M → R → MNode B M × R
  | 0, n, r => (n, r)
  | k + 1, n, r =>
    let s := mctsIterate O rnd num fuel n r
    mctsLoop O rnd num fuel k s.1.1 s.2

/-- MCTSEngine.get_move: none for a finished game before any simulation;
otherwise build the root, run the simulation loop, and return the move of
the first root child with the highest visit count (none when the root
never acquired children). -/
def mctsGetMove {B M R : Type} (O : Chess B M) (rnd : MctsRand M R) (num : MctsNum)
    (fuel iters : Nat) (b : B) (r : R) : Option M :=
  if O.isGameOver b then none
  else
    let root := mkMNode O rnd b none r
    let fin := mctsLoop O rnd num fuel iters root.1 root.2
    match fin.1.children with
    | [] => none
    | c0 :: cs => (pyMaxBy (fun a b : MNode B M => decide (a.visits < b.visits)) 0 c0 cs).2.mv

/-- GlickoRating (rating, rating deviation, volatility), over the reals as
the exact idealisation of the Python floats. -/
structure GlickoRating : Type where
  rating : ℝ
  rd : ℝ
  vol : ℝ

/-- The default rating of GlickoRating.default in
backend/ai_chess_experiments/glicko2.py: (1500, 350, 0.06). -/
noncomputable def defaultGlicko : GlickoRating := ⟨1500, 350, 6 / 100⟩

/-- The empty-results arm of Glicko2.update_rating: rating and volatility
unchanged, rating deviation moved to sqrt(rd^2 + vol^2) and capped.  The
cap is 350.0 in backend/ai_chess_experiments/glicko2.py and 500.0 in
chess-bot-backend/chess_bot_backend/glicko2.py; it is a parameter here.
The nonempty-results arm runs the unbounded volatility root-find treated
in the C4 analysis and is not part of this definition. -/
noncomputable def updateRatingEmpty (cap : ℝ) (r : GlickoRating) : GlickoRating :=
  ⟨r.rating, min (Real.sqrt (r.rd ^ 2 + r.vol ^ 2)) cap, r.vol⟩

/-- A small concrete position oracle for exercising the search embeddings:
a board is the history of moves played, pushing appends, the game is over
once any move has been played, and the side to move alternates from the
given root colour.  Chess-specific queries are inert. -/
def histChess (legal : List Nat → List Nat) (whiteAtRoot : Bool) : Chess (List Nat) Nat where
  legalMoves := legal
  push := fun b m => b ++ [m]
  pushNull := fun b => b
  pop := fun b => b.dropLast
  isGameOver := fun b => decide (b ≠ [])
  isCheckmate := fun _ => false
  isStalemate := fun _ => false
  isInsufficientMaterial := fun _ => false
  turn := fun b => if b.length % 2 = 0 then whiteAtRoot else !whiteAtRoot
  pieceAt := fun _ _ => none
  pieces := fun _ _ _ => []
  king := fun _ _ => none
  fenHash := fun _ => 0
  isCapture := fun _ _ => false
  givesCheck := fun _ _ => false
  promotionOf := fun _ => none
  moveFrom := fun _ => 0
  moveTo := fun _ => 0

/-- Oracle for the minimax/negamax comparison: two root moves, black to
move at the root. -/
def oracleMN : Chess (List Nat) Nat :=
  histChess (fun b => if b = [] then [0, 1] else []) false

/-- Evaluator for the minimax/negamax comparison. -/
def evMN : List Nat → ℚ := fun b => if b = [0] then 5 else if b = [1] then 7 else 0

/-- Oracle for the iterative-deepening scenario: two root moves, white to
move at the root. -/
def oracleID : Chess (List Nat) Nat :=
  histChess (fun b => if b = [] then [0, 1] else []) true

/-- Evaluator for the iterative-deepening scenario: the second root move
is better. -/
def evID : List Nat → ℚ := fun b => if b = [0] then 1 else if b = [1] then 2 else 0

/-- Clock schedule for the iterative-deepening scenario: the budget
expires at the sixth time poll, in the middle of the depth-2 root scan. -/
def clockID : Nat → Bool := fun t => decide (5 ≤ t)

/-- Oracle with no legal move anywhere, for the empty-root behaviour of
MinimaxEngine._get_move_impl. -/
def oracleEmpty : Chess (List Nat) Nat := histChess (fun _ => []) true

/-- Stateless randomness oracle for the MCTS scenarios: shuffling is the
identity and choice takes the head. -/
def rndHead : MctsRand Nat Nat where
  shuffle := fun r l => (l, r)
  choice := fun r l => (l.headD 0, r)

/-- Inert numeric oracle for the MCTS scenarios. -/
def numTrivial : MctsNum where
  explore := fun _ _ => 0
  sigmoid := fun x => x

/-- A two-board oracle whose board 0 is a checkmate with white to move and
whose board 1 is a stalemate, for the terminal-evaluation scenarios. -/
def termChess : Chess Nat Nat where
  legalMoves := fun _ => []
  push := fun b _ => b
  pushNull := fun b => b
  pop := fun b => b
  isGameOver := fun _ => true
  isCheckmate := fun b => decide (b = 0)
  isStalemate := fun b => decide (b = 1)
  isInsufficientMaterial := fun _ => false
  turn := fun _ => true
  pieceAt := fun _ _ => none
  pieces := fun _ _ _ => []
  king := fun _ _ => none
  fenHash := fun _ => 0
  isCapture := fun _ _ => false
  givesCheck := fun _ _ => false
  promotionOf := fun _ => none
  moveFrom := fun _ => 0
  moveTo := fun _ => 0

/-- An oracle whose single live position has the white king on a1 (square
0), the black king on g8 area (square 60), one white queen (so it is not
an endgame), and a reversible null move, for the king-safety guard
scenario. -/
def kingChess : Chess Nat Nat where
  legalMoves := fun _ => []
  push := fun b _ => b + 1
  pushNull := fun b => b + 1
  pop := fun b => b - 1
  isGameOver := fun _ => false
  isCheckmate := fun _ => false
  isStalemate := fun _ => false
  isInsufficientMaterial := fun _ => false
  turn := fun _ => true
  pieceAt := fun _ _ => none
  pieces := fun _ pt col => if pt = .queen ∧ col then [3] else []
  king := fun _ col => if col then some 0 else some 60
  fenHash := fun _ => 0
  isCapture := fun _ _ => false
  givesCheck := fun _ _ => false
  promotionOf := fun _ => none
  moveFrom := fun _ => 0
  moveTo := fun _ => 0

/-- An oracle for the move-ordering scenario: move 10 is a queen-takes-pawn
capture (victim on square 1, attacker on square 2) and move 20 is a quiet
checking move. -/
def quiChess : Chess Nat Nat where
  legalMoves := fun _ => [10, 20]
  push := fun b _ => b
  pushNull := fun b => b
  pop := fun b => b
  isGameOver := fun _ => false
  isCheckmate := fun _ => false
  isStalemate := fun _ => false
  isInsufficientMaterial := fun _ => false
  turn := fun _ => true
  pieceAt := fun _ sq =>
    if sq = 1 then some ⟨.pawn, false⟩
    else if sq = 2 then some ⟨.queen, true⟩
    else none
  pieces := fun _ _ _ => []
  king := fun _ _ => none
  fenHash := fun _ => 0
  isCapture := fun _ m => decide (m = 10)
  givesCheck := fun _ m => decide (m = 20)
  promotionOf := fun _ => none
  moveFrom := fun m => if m = 10 then 2 else 0
  moveTo := fun m => if m = 10 then 1 else 0

/-- A stack-board oracle where pushes cons onto the history and pop is the
tail, satisfying the push/pop laws exactly, for the board-restoration
scenarios. -/
def stackChess : Chess (List (Option Nat)) Nat where
  legalMoves := fun b => if b.length < 2 then [0, 1] else []
  push := fun b m => some m :: b
  pushNull := fun b => none :: b
  pop := fun b => b.tail
  isGameOver := fun b => decide (2 ≤ b.length)
  isCheckmate := fun _ => false
  isStalemate := fun _ => false
  isInsufficientMaterial := fun _ => false
  turn := fun b => decide (b.length % 2 = 0)
  pieceAt := fun _ _ => none
  pieces := fun _ _ _ => []
  king := fun _ _ => none
  fenHash := fun _ => 0
  isCapture := fun _ _ => false
  givesCheck := fun _ _ => false
  promotionOf := fun _ => none
  moveFrom := fun _ => 0
  moveTo := fun _ => 0

/-! Helper lemmas about the extended score type. -/

theorem XQ.neg_neg (x : XQ) : x.neg.neg = x := by
  cases x <;> simp [XQ.neg]

theorem XQ.neg_posInf : XQ.posInf.neg = XQ.negInf := rfl

theorem XQ.neg_negInf : XQ.negInf.neg = XQ.posInf := rfl

theorem XQ.lt_neg (x y : XQ) : XQ.lt x.neg y.neg = XQ.lt y x := by
  cases x <;> cases y <;> simp [XQ.neg, XQ.lt, neg_lt_neg_iff]

theorem XQ.le_neg (x y : XQ) : XQ.le x.neg y.neg = XQ.le y x := by
  simp [XQ.le, XQ.lt_neg]

theorem XQ.neg_min (x y : XQ) : (XQ.min x y).neg = XQ.max x.neg y.neg := by
  simp only [XQ.min, XQ.max, XQ.lt_neg, apply_ite XQ.neg]

theorem XQ.neg_max (x y : XQ) : (XQ.max x y).neg = XQ.min x.neg y.neg := by
  simp only [XQ.min, XQ.max, XQ.lt_neg, apply_ite XQ.neg]

theorem XQ.le_negInf (x : XQ) : XQ.le XQ.negInf x = true := by
  cases x <;> simp [XQ.le, XQ.lt]

theorem XQ.max_absorb (v a e : XQ) (h : XQ.le v a = true) :
    XQ.max a (XQ.max v e) = XQ.max a e := by
  cases v <;> cases a <;> cases e <;>
    simp_all [XQ.le, XQ.lt, XQ.max] <;> split_ifs <;> simp_all <;> linarith

theorem XQ.le_max_mono (v a e : XQ) (h : XQ.le v a = true) :
    XQ.le (XQ.max v e) (XQ.max a e) = true := by
  cases v <;> cases a <;> cases e <;>
    simp_all [XQ.le, XQ.lt, XQ.max] <;> split_ifs <;> simp_all <;> linarith

theorem XQ.lt_posInf_false (x : XQ) : XQ.lt XQ.posInf x = false := by
  cases x <;> simp [XQ.lt]

theorem XQ.max_posInf_left (x : XQ) : XQ.max XQ.posInf x = XQ.posInf := by
  simp [XQ.max, XQ.lt_posInf_false]

theorem XQ.max_posInf_right (x : XQ) : XQ.max x XQ.posInf = XQ.posInf := by
  cases x <;> simp [XQ.max, XQ.lt]

theorem XQ.le_posInf_iff (x : XQ) : XQ.le XQ.posInf x = true ↔ x = XQ.posInf := by
  cases x <;> simp [XQ.le, XQ.lt]

theorem XQ.max_eq_posInf_iff (a b : XQ) :
    XQ.max a b = XQ.posInf ↔ a = XQ.posInf ∨ b = XQ.posInf := by
  cases a <;> cases b <;> simp [XQ.max, XQ.lt] <;> split_ifs <;> simp_all

/-! Equivalence of the pruned negamax and pruned minimax searches. -/

/-- The negamax inner loop computes the value component of the maximizing
minimax loop, given that the negated child calls agree pointwise and the
running value is below alpha. -/
theorem ngLoop_eq_mmMaxLoop {B M : Type} (O : Chess B M) (cM : B → XQ → XQ)
    (cN : B → XQ → XQ → XQ) (b : B) (beta : XQ)
    (h : ∀ (m : M) (a1 : XQ),
      XQ.neg (cN (O.push b m) (XQ.neg beta) (XQ.neg a1)) = cM (O.push b m) a1) :
    ∀ (ms : List M) (best : Option M) (v alpha : XQ), XQ.le v alpha = true →
      ngLoop O cN b ms v alpha beta = (mmMaxLoop O cM b ms best v alpha beta).2 := by
  intro ms
  induction ms with
  | nil => intro best v alpha h1; rfl
  | cons m ms ih =>
    intro best v alpha h1
    simp only [ngLoop, mmMaxLoop]
    rw [h m alpha, XQ.max_absorb v alpha _ h1]
    by_cases hb : XQ.le beta (XQ.max alpha (cM (O.push b m) alpha)) = true
    · simp [hb]
    · simp only [Bool.not_eq_true] at hb
      simp only [hb, Bool.false_eq_true, if_false]
      exact ih _ _ _ (XQ.le_max_mono v alpha _ h1)

/-- The minimizing minimax loop is the negation-conjugate of the
maximizing loop: same best move, negated value, mirrored window. -/
theorem mmMinLoop_conj {B M : Type} (O : Chess B M) (c : B → XQ → XQ) (b : B) :
    ∀ (ms : List M) (best : Option M) (minE alpha beta : XQ),
      mmMinLoop O c b ms best minE alpha beta =
        ((mmMaxLoop O (fun b1 g => XQ.neg (c b1 (XQ.neg g))) b ms best
            minE.neg beta.neg alpha.neg).1,
         XQ.neg (mmMaxLoop O (fun b1 g => XQ.neg (c b1 (XQ.neg g))) b ms best
            minE.neg beta.neg alpha.neg).2) := by
  intro ms
  induction ms with
  | nil =>
    intro best minE alpha beta
    simp [mmMinLoop, mmMaxLoop, XQ.neg_neg]
  | cons m ms ih =>
    intro best minE alpha beta
    simp only [mmMinLoop, mmMaxLoop, XQ.neg_neg]
    rw [show XQ.max minE.neg (c (O.push b m) beta).neg = (XQ.min minE (c (O.push b m) beta)).neg
        from (XQ.neg_min _ _).symm]
    rw [show XQ.max beta.neg (c (O.push b m) beta).neg = (XQ.min beta (c (O.push b m) beta)).neg
        from (XQ.neg_min _ _).symm]
    rw [XQ.lt_neg, XQ.le_neg]
    by_cases hb : XQ.le (XQ.min beta (c (O.push b m) beta)) alpha = true
    · simp [hb, XQ.neg_neg]
    · simp only [Bool.not_eq_true] at hb
      simp only [hb, Bool.false_eq_true, if_false]
      exact ih _ _ _ _

/-- Once alpha has saturated at the positive infinity sentinel, the
negamax root loop no longer changes its result. -/
theorem ngRootLoop_sat {B M : Type} (O : Chess B M) (cR : B → XQ → XQ) (b : B) :
    ∀ (ms : List M) (best : Option M),
      ngRootLoop O cR b ms best XQ.posInf XQ.posInf = (best, XQ.posInf) := by
  intro ms
  induction ms with
  | nil => intro best; rfl
  | cons m ms ih =>
    intro best
    simp only [ngRootLoop, XQ.lt_posInf_false, XQ.max_posInf_left, Bool.false_eq_true, if_false]
    exact ih best

/-- The negamax root loop agrees with the maximizing minimax loop run with
an infinite beta window, move and value alike. -/
theorem ngRootLoop_eq_mmMaxLoop {B M : Type} (O : Chess B M) (cM : B → XQ → XQ)
    (cR : B → XQ → XQ) (b : B)
    (h : ∀ (m : M) (a1 : XQ),
      XQ.neg (cR (O.push b m) (XQ.neg a1)) = cM (O.push b m) a1) :
    ∀ (ms : List M) (best : Option M) (v alpha : XQ),
      XQ.le v alpha = true → alpha ≠ XQ.posInf →
      ngRootLoop O cR b ms best v alpha = mmMaxLoop O cM b ms best v alpha XQ.posInf := by
  intro ms
  induction ms with
  | nil => intro best v alpha h1 h2; rfl
  | cons m ms ih =>
    intro best v alpha h1 h2
    simp only [ngRootLoop, mmMaxLoop]
    rw [h m alpha]
    by_cases hb : XQ.le XQ.posInf (XQ.max alpha (cM (O.push b m) alpha)) = true
    · rw [if_pos hb]
      have hmax := (XQ.le_posInf_iff _).mp hb
      have he : cM (O.push b m) alpha = XQ.posInf := by
        rcases (XQ.max_eq_posInf_iff _ _).mp hmax with h3 | h3
        · exact absurd h3 h2
        · exact h3
      rw [he, XQ.max_posInf_right, XQ.max_posInf_right]
      exact ngRootLoop_sat O cR b ms _
    · simp only [Bool.not_eq_true] at hb
      simp only [hb, Bool.false_eq_true, if_false]
      have h3 : XQ.max alpha (cM (O.push b m) alpha) ≠ XQ.posInf := by
        intro hc
        rw [(XQ.le_posInf_iff _).mpr hc] at hb
        simp at hb
      exact ih _ _ _ (XQ.le_max_mono v alpha _ h1) h3

/-- NegamaxEngine._negamax computes, from the mover's perspective, exactly
the value of MinimaxEngine.minimax run with the maximizing flag tracking
the side to move, with the alpha-beta window negated and swapped on the
minimizing side. -/
theorem ngSearch_eq_mmSearch {B M : Type} (O : Chess B M) (ev : B → ℚ)
    (hturn : ∀ (b : B) (m : M), O.turn (O.push b m) = !O.turn b) :
    ∀ (d : Nat) (b : B) (alpha beta : XQ),
      ngSearch O ev d b alpha beta =
        if O.turn b then (mmSearch O ev d b alpha beta true).2
        else XQ.neg (mmSearch O ev d b beta.neg alpha.neg false).2 := by
  intro d
  induction d with
  | zero =>
    intro b alpha beta
    by_cases ht : O.turn b
    · simp [ngSearch, mmSearch, ht]
    · simp [ngSearch, mmSearch, ht, XQ.neg]
  | succ d ih =>
    intro b alpha beta
    by_cases hgo : O.isGameOver b = true
    · by_cases ht : O.turn b <;> simp [ngSearch, mmSearch, hgo, ht, XQ.neg]
    · simp only [Bool.not_eq_true] at hgo
      by_cases ht : O.turn b
      · have h : ∀ (m : M) (a1 : XQ),
            XQ.neg (ngSearch O ev d (O.push b m) (XQ.neg beta) (XQ.neg a1)) =
              (mmSearch O ev d (O.push b m) a1 beta false).2 := by
          intro m a1
          have ht1 : O.turn (O.push b m) = false := by rw [hturn]; simp [ht]
          rw [ih (O.push b m) (XQ.neg beta) (XQ.neg a1)]
          simp [ht1, XQ.neg_neg]
        simp only [ngSearch, mmSearch, hgo, ht, Bool.false_eq_true, if_false, if_true]
        exact ngLoop_eq_mmMaxLoop O _ _ b beta h (O.legalMoves b) none .negInf alpha
          (XQ.le_negInf alpha)
      · have ht0 : O.turn b = false := by simp [ht]
        have h : ∀ (m : M) (a1 : XQ),
            XQ.neg (ngSearch O ev d (O.push b m) (XQ.neg beta) (XQ.neg a1)) =
              XQ.neg ((mmSearch O ev d (O.push b m) beta.neg (XQ.neg a1) true).2) := by
          intro m a1
          have ht1 : O.turn (O.push b m) = true := by rw [hturn, ht0]; rfl
          rw [ih (O.push b m) (XQ.neg beta) (XQ.neg a1)]
          simp [ht1]
        simp only [ngSearch, mmSearch, hgo, ht0, Bool.false_eq_true, if_false]
        rw [mmMinLoop_conj]
        simp only [XQ.neg_neg, XQ.neg_posInf]
        exact ngLoop_eq_mmMaxLoop O
          (fun b1 g => XQ.neg ((mmSearch O ev d b1 beta.neg (XQ.neg g) true).2))
          (fun b1 a1 b2 => ngSearch O ev d b1 a1 b2) b beta h (O.legalMoves b) none .negInf
          alpha (XQ.le_negInf alpha)

/-- The side to move alternates with each push in the history oracle used
for the minimax/negamax comparison. -/
theorem turn_flips_oracleMN : ∀ (b1 : List Nat) (m : Nat),
    oracleMN.turn (oracleMN.push b1 m) = !oracleMN.turn b1 := by
  intro b1 m
  simp only [oracleMN, histChess, List.length_append, List.length_cons, List.length_nil]
  rcases Nat.mod_two_eq_zero_or_one b1.length with h | h <;>
    simp [h, Nat.add_mod]

/-- C1 (amended).  For every position, fixed depth at least 1 and fixed
white-positive evaluator, provided the side to move alternates with each
push and the position is not game over: MinimaxEngine.minimax (run with
the root maximizing flag equal to the side to move, as _get_move_impl
does) and NegamaxEngine.get_move return the same best move; the negamax
root value is the minimax score when white is to move and its negation
when black is to move (negamax reports the mover's perspective), so the
two scores are equal only up to that sign. -/
theorem minimax_negamax_same_move_mover_score {B M : Type} (O : Chess B M)
    (ev : B → ℚ) (d : Nat) (b : B)
    (hturn : ∀ (b1 : B) (m : M), O.turn (O.push b1 m) = !O.turn b1)
    (hd : 1 ≤ d) (hgo : O.isGameOver b = false) :
    (mmSearch O ev d b .negInf .posInf (O.turn b)).1 = ngGetMove O ev d b
    ∧ (ngRoot O ev d b).2 =
        (if O.turn b then (mmSearch O ev d b .negInf .posInf (O.turn b)).2
         else XQ.neg ((mmSearch O ev d b .negInf .posInf (O.turn b)).2)) := by
  obtain ⟨dd, rfl⟩ : ∃ dd, d = dd + 1 := ⟨d - 1, (Nat.succ_pred_eq_of_pos hd).symm⟩
  have hdd : dd + 1 - 1 = dd := by omega
  have hng : ngRoot O ev (dd + 1) b =
      ngRootLoop O (fun b1 a1 => ngSearch O ev dd b1 .negInf a1) b
        (O.legalMoves b) none .negInf .negInf := by
    simp [ngRoot, hdd]
  by_cases ht : O.turn b
  · have h : ∀ (m : M) (a1 : XQ),
        XQ.neg (ngSearch O ev dd (O.push b m) .negInf (XQ.neg a1)) =
          (mmSearch O ev dd (O.push b m) a1 .posInf false).2 := by
      intro m a1
      have ht1 : O.turn (O.push b m) = false := by rw [hturn]; simp [ht]
      rw [ngSearch_eq_mmSearch O ev hturn dd (O.push b m) .negInf (XQ.neg a1)]
      simp [ht1, XQ.neg_neg, XQ.neg_posInf, XQ.neg_negInf]
    have hroot : ngRoot O ev (dd + 1) b =
        mmSearch O ev (dd + 1) b .negInf .posInf true := by
      rw [hng]
      rw [show mmSearch O ev (dd + 1) b .negInf .posInf true =
          mmMaxLoop O (fun b1 a1 => (mmSearch O ev dd b1 a1 .posInf false).2) b
            (O.legalMoves b) none .negInf .negInf .posInf by
        simp [mmSearch, hgo]]
      exact ngRootLoop_eq_mmMaxLoop O _ _ b h (O.legalMoves b) none .negInf .negInf
        (XQ.le_negInf _) (by simp)
    constructor
    · simp only [ngGetMove, hgo, Bool.false_eq_true, if_false, hroot, ht]
    · rw [hroot, if_pos ht, ht]
  · have ht0 : O.turn b = false := by simp [ht]
    have h : ∀ (m : M) (a1 : XQ),
        XQ.neg (ngSearch O ev dd (O.push b m) .negInf (XQ.neg a1)) =
          XQ.neg ((mmSearch O ev dd (O.push b m) .negInf (XQ.neg a1) true).2) := by
      intro m a1
      have ht1 : O.turn (O.push b m) = true := by rw [hturn, ht0]; rfl
      rw [ngSearch_eq_mmSearch O ev hturn dd (O.push b m) .negInf (XQ.neg a1)]
      simp [ht1]
    have hconj := mmMinLoop_conj O
      (fun b1 b2 => (mmSearch O ev dd b1 .negInf b2 true).2) b
      (O.legalMoves b) (none : Option M) .posInf .negInf .posInf
    have hmm : mmSearch O ev (dd + 1) b .negInf .posInf false =
        mmMinLoop O (fun b1 b2 => (mmSearch O ev dd b1 .negInf b2 true).2) b
          (O.legalMoves b) none .posInf .negInf .posInf := by
      simp [mmSearch, hgo]
    have hroot : ngRoot O ev (dd + 1) b =
        mmMaxLoop O
          (fun b1 g => XQ.neg ((mmSearch O ev dd b1 .negInf (XQ.neg g) true).2)) b
          (O.legalMoves b) none .negInf .negInf .posInf := by
      rw [hng]
      exact ngRootLoop_eq_mmMaxLoop O _ _ b h (O.legalMoves b) none .negInf .negInf
        (XQ.le_negInf _) (by simp)
    rw [XQ.neg_posInf, XQ.neg_negInf] at hconj
    constructor
    · simp only [ngGetMove, hgo, Bool.false_eq_true, if_false, ht0, hmm, hconj, hroot]
    · rw [ht0, hmm, hconj, hroot]
      simp [XQ.neg_neg]

/-- C1 counterexample to the claim as stated: on the two-move position
with black to move, both engines pick move 0, but minimax reports the
white-perspective score 5 while the negamax root value is -5 (mover
perspective), so the scores are not the same. -/
theorem minimax_negamax_score_mismatch :
    (mmSearch oracleMN evMN 1 [] .negInf .posInf (oracleMN.turn [])).1 = some 0
    ∧ ngGetMove oracleMN evMN 1 [] = some 0
    ∧ (mmSearch oracleMN evMN 1 [] .negInf .posInf (oracleMN.turn [])).2 = XQ.fin 5
    ∧ (ngRoot oracleMN evMN 1 []).2 = XQ.fin (-5)
    ∧ XQ.fin 5 ≠ XQ.fin (-5) := by
  refine ⟨?_, ?_, ?_, ?_, by decide⟩
  · norm_num [mmSearch, mmMinLoop, mmMaxLoop, oracleMN, histChess, evMN, XQ.neg, XQ.max,
      XQ.min, XQ.lt, XQ.le]
  · norm_num [ngGetMove, ngRoot, ngRootLoop, ngSearch, oracleMN, histChess, evMN, XQ.neg,
      XQ.max, XQ.lt]
  · norm_num [mmSearch, mmMinLoop, mmMaxLoop, oracleMN, histChess, evMN, XQ.neg, XQ.max,
      XQ.min, XQ.lt, XQ.le]
  · norm_num [ngRoot, ngRootLoop, ngSearch, oracleMN, histChess, evMN, XQ.neg, XQ.max, XQ.lt]

/-- C1 witness: the amended agreement instantiated on the concrete
two-move oracle at depth 1, with every hypothesis discharged. -/
theorem minimax_negamax_witness :
    (∀ (b1 : List Nat) (m : Nat), oracleMN.turn (oracleMN.push b1 m) = !oracleMN.turn b1)
    ∧ 1 ≤ 1 ∧ oracleMN.isGameOver [] = false
    ∧ ((mmSearch oracleMN evMN 1 [] .negInf .posInf (oracleMN.turn [])).1 =
          ngGetMove oracleMN evMN 1 []
        ∧ (ngRoot oracleMN evMN 1 []).2 =
            (if oracleMN.turn [] then (mmSearch oracleMN evMN 1 [] .negInf .posInf
                (oracleMN.turn [])).2
             else XQ.neg ((mmSearch oracleMN evMN 1 [] .negInf .posInf
                (oracleMN.turn [])).2))) :=
  ⟨turn_flips_oracleMN, le_refl 1, rfl,
    minimax_negamax_same_move_mover_score oracleMN evMN 1 [] turn_flips_oracleMN
      (le_refl 1) rfl⟩

/-- C5 (confirmed).  evaluate_position returns exactly -10000 when the
side to move (white) is checkmated and +10000 when black is checkmated,
and exactly 0 on stalemate or insufficient material (the hash jitter is
added only after these early returns). -/
theorem evaluate_terminal_scores {B M : Type} (O : Chess B M) (b : B) :
    (O.isCheckmate b = true →
      evaluatePosition O b = if O.turn b then -10000 else 10000)
    ∧ (O.isCheckmate b = false →
      (O.isStalemate b = true ∨ O.isInsufficientMaterial b = true) →
      evaluatePosition O b = 0) := by
  constructor
  · intro h
    simp [evaluatePosition, evaluatePositionSt, h]
  · intro h h2
    rcases h2 with h2 | h2 <;> simp [evaluatePosition, evaluatePositionSt, h, h2]

/-- C5 witness: on the concrete terminal oracle, the checkmated board
scores -10000 and the stalemated board scores 0. -/
theorem evaluate_terminal_scores_witness :
    termChess.isCheckmate 0 = true ∧ evaluatePosition termChess 0 = -10000
    ∧ termChess.isCheckmate 1 = false ∧ termChess.isStalemate 1 = true
    ∧ evaluatePosition termChess 1 = 0 :=
  ⟨rfl, by simpa [termChess] using (evaluate_terminal_scores termChess 0).1 rfl,
   rfl, rfl, (evaluate_terminal_scores termChess 1).2 rfl (Or.inl rfl)⟩

/-- C10 (confirmed).  In a non-endgame position with both kings present
but the white king on square 0 (a1), the truthiness guard of
evaluate_position discards the whole king-safety block, which therefore
contributes 0 for both sides; the evaluation is exactly material plus
mobility plus pawn structure plus the hash jitter. -/
theorem king_safety_skipped_on_a1 {B M : Type} (O : Chess B M) (b : B)
    (hcm : O.isCheckmate b = false) (hsm : O.isStalemate b = false)
    (him : O.isInsufficientMaterial b = false)
    (hend : isEndgame O b = false)
    (hpn : O.pop (O.pushNull b) = b)
    (hwk : O.king b true = some 0) (hbk : (O.king b false).isSome = true) :
    kingSafetyTerm O b false = 0
    ∧ evaluatePosition O b =
        ((materialTerm O b false + (mobilityTermSt O b false).1 + pawnTerm O b : Int) : ℚ)
          + hashJitter O b := by
  have hks : kingSafetyTerm O b false = 0 := by
    simp [kingSafetyTerm, hwk, truthySquare]
  refine ⟨hks, ?_⟩
  simp only [evaluatePosition, evaluatePositionSt, hcm, hsm, him, hend, Bool.false_eq_true,
    if_false, Bool.or_self, mobilityTermSt, hpn, hks]
  push_cast
  ring

/-- C10 witness: the king-safety skip instantiated on the concrete oracle
with the white king on a1. -/
theorem king_safety_skipped_on_a1_witness :
    kingChess.isCheckmate 0 = false ∧ isEndgame kingChess 0 = false
    ∧ kingChess.king 0 true = some 0 ∧ (kingChess.king 0 false).isSome = true
    ∧ kingSafetyTerm kingChess 0 false = 0
    ∧ evaluatePosition kingChess 0 =
        ((materialTerm kingChess 0 false + (mobilityTermSt kingChess 0 false).1
          + pawnTerm kingChess 0 : Int) : ℚ) + hashJitter kingChess 0 :=
  ⟨rfl, rfl, rfl, rfl,
   (king_safety_skipped_on_a1 kingChess 0 rfl rfl rfl rfl rfl rfl rfl).1,
   (king_safety_skipped_on_a1 kingChess 0 rfl rfl rfl rfl rfl rfl rfl).2⟩

/-- The state-threaded maximizing loop restores the board it was entered
with, provided each child call restores its own board and pop undoes
push. -/
theorem mmMaxLoopSt_board {B M : Type} (O : Chess B M) (child : B → XQ → XQ × B)
    (hpp : ∀ (b1 : B) (m : M), O.pop (O.push b1 m) = b1)
    (hchild : ∀ (b1 : B) (a : XQ), (child b1 a).2 = b1) :
    ∀ (ms : List M) (b : B) (best : Option M) (maxE alpha beta : XQ),
      (mmMaxLoopSt O child b ms best maxE alpha beta).2 = b := by
  intro ms
  induction ms with
  | nil => intro b best maxE alpha beta; rfl
  | cons m ms ih =>
    intro b best maxE alpha beta
    simp only [mmMaxLoopSt, hchild, hpp]
    split
    · rfl
    · exact ih b _ _ _ _

/-- The state-threaded minimizing loop restores its board likewise. -/
theorem mmMinLoopSt_board {B M : Type} (O : Chess B M) (child : B → XQ → XQ × B)
    (hpp : ∀ (b1 : B) (m : M), O.pop (O.push b1 m) = b1)
    (hchild : ∀ (b1 : B) (a : XQ), (child b1 a).2 = b1) :
    ∀ (ms : List M) (b : B) (best : Option M) (minE alpha beta : XQ),
      (mmMinLoopSt O child b ms best minE alpha beta).2 = b := by
  intro ms
  induction ms with
  | nil => intro b best minE alpha beta; rfl
  | cons m ms ih =>
    intro b best minE alpha beta
    simp only [mmMinLoopSt, hchild, hpp]
    split
    · rfl
    · exact ih b _ _ _ _

/-- C9 (confirmed).  Every push in MinimaxEngine.minimax is matched by
exactly one pop (there is no exceptional exit in the search body), so the
board after any call into the recursion equals the board before it; the
same holds for the null-move mobility probe of evaluate_position. -/
theorem push_pop_balanced {B M : Type} (O : Chess B M) (ev : B → ℚ) (d : Nat) (b : B)
    (alpha beta : XQ) (maximizing : Bool)
    (hpp : ∀ (b1 : B) (m : M), O.pop (O.push b1 m) = b1)
    (hpn : ∀ b1 : B, O.pop (O.pushNull b1) = b1) :
    (mmSearchSt O ev d b alpha beta maximizing).2 = b
    ∧ (evaluatePositionSt O b).2 = b := by
  constructor
  · induction d generalizing b alpha beta maximizing with
    | zero => rfl
    | succ d ih =>
      by_cases hgo : O.isGameOver b = true
      · simp [mmSearchSt, hgo]
      · simp only [Bool.not_eq_true] at hgo
        by_cases hm : maximizing
        · simp only [mmSearchSt, hgo, Bool.false_eq_true, if_false, hm, if_true]
          exact mmMaxLoopSt_board O _ hpp (fun b1 a => ih b1 a beta false)
            (O.legalMoves b) b _ _ _ _
        · simp only [mmSearchSt, hgo, Bool.false_eq_true, if_false, hm]
          exact mmMinLoopSt_board O _ hpp (fun b1 a => ih b1 alpha a true)
            (O.legalMoves b) b _ _ _ _
  · by_cases h1 : O.isCheckmate b = true
    · simp [evaluatePositionSt, h1]
    · by_cases h2 : (O.isStalemate b || O.isInsufficientMaterial b) = true
      · simp [evaluatePositionSt, h1, h2]
      · by_cases h3 : isEndgame O b = true <;>
          simp [evaluatePositionSt, h1, h2, h3, mobilityTermSt, hpn]

/-- C9 witness: board restoration on the concrete stack oracle whose pop
is the exact inverse of push, at depth 2 from the empty history. -/
theorem push_pop_balanced_witness :
    (∀ (b1 : List (Option Nat)) (m : Nat), stackChess.pop (stackChess.push b1 m) = b1)
    ∧ (mmSearchSt stackChess (fun _ => 0) 2 [] .negInf .posInf true).2 = []
    ∧ (evaluatePositionSt stackChess []).2 = [] :=
  ⟨fun b1 m => rfl,
   (push_pop_balanced stackChess (fun _ => 0) 2 [] .negInf .posInf true
      (fun b1 m => rfl) (fun b1 => rfl)).1,
   (push_pop_balanced stackChess (fun _ => 0) 2 [] .negInf .posInf true
      (fun b1 m => rfl) (fun b1 => rfl)).2⟩

/-- C3 (amended).  When the root has no legal moves,
MinimaxEngine._get_move_impl raises ValueError (it does not return a
(none, evaluation) pair); with at least one legal move it always returns
successfully; NegamaxEngine.get_move returns none, with no score, for a
finished game. -/
theorem no_legal_moves_behaviour {B M : Type} (O : Chess B M) (ev : B → ℚ)
    (pick : List M → M) (level d : Nat) (b : B) :
    ((O.legalMoves b).isEmpty = true →
      mmGetMoveImpl O ev pick level b = Except.error "No legal moves available")
    ∧ ((O.legalMoves b).isEmpty = false →
      ∃ p, mmGetMoveImpl O ev pick level b = Except.ok p)
    ∧ (O.isGameOver b = true → ngGetMove O ev d b = none) := by
  refine ⟨?_, ?_, ?_⟩
  · intro h
    simp [mmGetMoveImpl, h]
  · intro h
    rcases hfold : (List.range level).foldl (mmDeepenStep O ev b)
        (none : Option (M × XQ)) with _ | p <;>
      simp [mmGetMoveImpl, h, hfold]
  · intro h
    simp [ngGetMove, h]

/-- C3 counterexample to the claim as stated: on a root with no legal
moves the minimax engine raises ValueError instead of returning the pair
(none, evaluate(position)). -/
theorem minimax_empty_root_raises :
    oracleEmpty.legalMoves [] = []
    ∧ mmGetMoveImpl oracleEmpty (fun _ => 0) (fun l => l.headD 0) 3 [] =
        Except.error "No legal moves available" :=
  ⟨rfl, rfl⟩

/-- C3 witness: the amended behaviour instantiated on the empty-move
oracle (error at the empty root) and on the two-move oracle (success with
a legal move present, none for a finished game). -/
theorem no_legal_moves_behaviour_witness :
    ((oracleEmpty.legalMoves []).isEmpty = true
      ∧ mmGetMoveImpl oracleEmpty (fun _ => 0) (fun l => l.headD 0) 3 [] =
          Except.error "No legal moves available")
    ∧ ((oracleMN.legalMoves []).isEmpty = false
      ∧ ∃ p, mmGetMoveImpl oracleMN evMN (fun l => l.headD 0) 3 [] = Except.ok p)
    ∧ (oracleMN.isGameOver [0] = true ∧ ngGetMove oracleMN evMN 3 [0] = none) :=
  ⟨⟨rfl, (no_legal_moves_behaviour oracleEmpty (fun _ => 0) (fun l => l.headD 0) 3 3 []).1 rfl⟩,
   ⟨rfl, (no_legal_moves_behaviour oracleMN evMN (fun l => l.headD 0) 3 3 []).2.1 rfl⟩,
   ⟨rfl, (no_legal_moves_behaviour oracleMN evMN (fun l => l.headD 0) 3 3 [0]).2.2 rfl⟩⟩

/-- C8 (amended).  The empty-results update leaves rating and volatility
unchanged and sets rd to min(sqrt(rd^2 + vol^2), cap); the returned rd is
never smaller than the input rd provided the input rd is nonnegative and
does not exceed the cap.  (For an input rd above the cap the returned rd
is the cap, which is smaller.) -/
theorem glicko_empty_update (cap : ℝ) (r : GlickoRating)
    (h0 : 0 ≤ r.rd) (hc : r.rd ≤ cap) :
    (updateRatingEmpty cap r).rating = r.rating
    ∧ (updateRatingEmpty cap r).vol = r.vol
    ∧ (updateRatingEmpty cap r).rd = min (Real.sqrt (r.rd ^ 2 + r.vol ^ 2)) cap
    ∧ r.rd ≤ (updateRatingEmpty cap r).rd := by
  refine ⟨rfl, rfl, rfl, ?_⟩
  show r.rd ≤ min (Real.sqrt (r.rd ^ 2 + r.vol ^ 2)) cap
  refine le_min ?_ hc
  rw [show r.rd ^ 2 + r.vol ^ 2 = r.rd ^ 2 + r.vol ^ 2 from rfl]
  calc r.rd = Real.sqrt (r.rd ^ 2) := by rw [Real.sqrt_sq h0]
    _ ≤ Real.sqrt (r.rd ^ 2 + r.vol ^ 2) := by
        apply Real.sqrt_le_sqrt
        nlinarith [sq_nonneg r.vol]

/-- C8 counterexample to the claim as stated: with the backend cap of 350
and an input rd of 400, the empty-results update returns rd = 350, which
is smaller than the input rd. -/
theorem glicko_empty_update_rd_decreases :
    (updateRatingEmpty 350 ⟨1500, 400, 6 / 100⟩).rd < (400 : ℝ) := by
  show min (Real.sqrt _) 350 < 400
  calc min (Real.sqrt ((400 : ℝ) ^ 2 + (6 / 100) ^ 2)) 350 ≤ 350 := min_le_right _ _
    _ < 400 := by norm_num

/-- C8 witness: the amended statement at the default rating (1500, 350,
0.06) with the backend cap 350. -/
theorem glicko_empty_update_witness :
    (0 : ℝ) ≤ (350 : ℝ) ∧ (350 : ℝ) ≤ (350 : ℝ)
    ∧ (updateRatingEmpty 350 ⟨1500, 350, 6 / 100⟩).rating = 1500
    ∧ (updateRatingEmpty 350 ⟨1500, 350, 6 / 100⟩).vol = 6 / 100
    ∧ (350 : ℝ) ≤ (updateRatingEmpty 350 ⟨1500, 350, 6 / 100⟩).rd := by
  refine ⟨by norm_num, le_refl _, ?_, ?_, ?_⟩
  · exact (glicko_empty_update 350 ⟨1500, 350, 6 / 100⟩ (by norm_num) (le_refl _)).1
  · exact (glicko_empty_update 350 ⟨1500, 350, 6 / 100⟩ (by norm_num) (le_refl _)).2.1
  · exact (glicko_empty_update 350 ⟨1500, 350, 6 / 100⟩ (by norm_num) (le_refl _)).2.2.2

/-- Inserting into the descending insertion sort yields a permutation of
the element consed onto the list. -/
theorem insertByDesc_perm {α : Type} (val : α → Int) (x : α) :
    ∀ l : List α, (insertByDesc val x l).Perm (x :: l) := by
  intro l
  induction l with
  | nil => exact List.Perm.refl _
  | cons y ys ih =>
    simp only [insertByDesc]
    split
    · exact (ih.cons y).trans (List.Perm.swap x y ys)
    · exact List.Perm.refl _

/-- Insertion preserves the descending pairwise ordering. -/
theorem insertByDesc_pairwise {α : Type} (val : α → Int) (x : α) :
    ∀ l : List α, List.Pairwise (fun a b => val b ≤ val a) l →
      List.Pairwise (fun a b => val b ≤ val a) (insertByDesc val x l) := by
  intro l
  induction l with
  | nil => intro _; simp [insertByDesc]
  | cons y ys ih =>
    intro h
    rcases List.pairwise_cons.mp h with ⟨hy, hys⟩
    simp only [insertByDesc]
    split
    case isTrue hlt =>
      refine List.pairwise_cons.mpr ⟨?_, ih hys⟩
      intro a ha
      rcases List.mem_cons.mp ((insertByDesc_perm val x ys).mem_iff.mp ha) with rfl | ha2
      · exact le_of_lt hlt
      · exact hy a ha2
    case isFalse hge =>
      refine List.pairwise_cons.mpr ⟨?_, h⟩
      intro a ha
      rcases List.mem_cons.mp ha with rfl | ha2
      · exact Int.not_lt.mp hge
      · exact le_trans (hy a ha2) (Int.not_lt.mp hge)

/-- Insertion puts the new element in front of every element of equal
key, so key-filtered sublists are preserved up to the new element. -/
theorem insertByDesc_filter {α : Type} (val : α → Int) (x : α) (v : Int) :
    ∀ l : List α, (insertByDesc val x l).filter (fun a => decide (val a = v)) =
      if val x = v then x :: l.filter (fun a => decide (val a = v))
      else l.filter (fun a => decide (val a = v)) := by
  intro l
  induction l with
  | nil =>
    by_cases hxv : val x = v <;> simp [insertByDesc, List.filter_cons, hxv]
  | cons y ys ih =>
    simp only [insertByDesc]
    by_cases hlt : val x < val y
    · rw [if_pos hlt]
      simp only [List.filter_cons, ih]
      by_cases hxv : val x = v
      · have hyv : ¬(val y = v) := by omega
        simp [hxv, hyv]
      · simp [hxv]
    · rw [if_neg hlt]
      simp only [List.filter_cons]
      split_ifs <;> simp_all

/-- The descending insertion sort is stable: every key class keeps its
original order. -/
theorem sortByDesc_filter {α : Type} (val : α → Int) (v : Int) :
    ∀ l : List α, (sortByDesc val l).filter (fun a => decide (val a = v)) =
      l.filter (fun a => decide (val a = v)) := by
  intro l
  induction l with
  | nil => rfl
  | cons x xs ih =>
    simp only [sortByDesc, insertByDesc_filter, ih, List.filter_cons]
    split_ifs <;> simp_all

/-- The descending insertion sort permutes its input. -/
theorem sortByDesc_perm {α : Type} (val : α → Int) :
    ∀ l : List α, (sortByDesc val l).Perm l := by
  intro l
  induction l with
  | nil => exact List.Perm.refl _
  | cons x xs ih =>
    exact (insertByDesc_perm val x (sortByDesc val xs)).trans (ih.cons x)

/-- The descending insertion sort sorts. -/
theorem sortByDesc_pairwise {α : Type} (val : α → Int) :
    ∀ l : List α, List.Pairwise (fun a b => val b ≤ val a) (sortByDesc val l) := by
  intro l
  induction l with
  | nil => simp [sortByDesc]
  | cons x xs ih => exact insertByDesc_pairwise val x _ ih

/-- C6 (amended).  QuiescenceEngine._order_moves is the stable descending
sort of the moves by _move_value: the output is a permutation of the
input, the heuristic values are non-increasing along it, and every value
class keeps the original enumeration order.  The values stratify as
promotions 10000, captures with a visible victim and attacker at
victim - attacker + 1000, checks 500 and quiet moves 0 - so a capture can
legitimately rank below a check when the attacker outvalues the victim by
more than 500, and en-passant captures (empty target square) score as
checks or quiet moves. -/
theorem order_moves_stable_desc {B M : Type} (O : Chess B M) (b : B) (ms : List M) :
    (orderMoves O b ms).Perm ms
    ∧ List.Pairwise (fun m1 m2 => moveValue O b m2 ≤ moveValue O b m1) (orderMoves O b ms)
    ∧ ∀ v : Int, (orderMoves O b ms).filter (fun m => decide (moveValue O b m = v)) =
        ms.filter (fun m => decide (moveValue O b m = v)) :=
  ⟨sortByDesc_perm _ ms, sortByDesc_pairwise _ ms, fun v => sortByDesc_filter _ v ms⟩

/-- C6 counterexample to the claim as stated: move 10 is a queen-takes-pawn
capture (value 100 - 900 + 1000 = 200) and move 20 a quiet check (value
500); the ordering places the checking move before the capture, so not all
captures precede all checks. -/
theorem capture_ordered_after_check :
    quiChess.promotionOf 10 = none ∧ quiChess.isCapture 0 10 = true
    ∧ quiChess.isCapture 0 20 = false ∧ quiChess.givesCheck 0 20 = true
    ∧ moveValue quiChess 0 10 = 200 ∧ moveValue quiChess 0 20 = 500
    ∧ orderMoves quiChess 0 [10, 20] = [20, 10] := by
  refine ⟨rfl, rfl, rfl, rfl, ?_, ?_, ?_⟩ <;> decide

/-- The root scan of the iterative-deepening engine returns either the
best move it entered with or one of the scanned moves. -/
theorem idRootLoop_result {B M : Type} (O : Chess B M) (clock : Nat → Bool)
    (child : B → XQ → Nat → XQ × Nat) (b : B) :
    ∀ (ms : List M) (best : Option M) (bv alpha : XQ) (t : Nat),
      (idRootLoop O clock child b ms best bv alpha t).1.2 = best
      ∨ ∃ m ∈ ms, (idRootLoop O clock child b ms best bv alpha t).1.2 = some m := by
  intro ms
  induction ms with
  | nil => intro best bv alpha t; exact Or.inl rfl
  | cons m ms ih =>
    intro best bv alpha t
    by_cases hc : clock t = true
    · rw [show idRootLoop O clock child b (m :: ms) best bv alpha t = ((bv, best), t + 1) from
        by simp [idRootLoop, hc]]
      exact Or.inl rfl
    · rw [show idRootLoop O clock child b (m :: ms) best bv alpha t =
          idRootLoop O clock child b ms
            (if XQ.lt bv (XQ.neg (child (O.push b m) (XQ.neg alpha) (t + 1)).1) then some m
             else best)
            (XQ.max bv (XQ.neg (child (O.push b m) (XQ.neg alpha) (t + 1)).1))
            (XQ.max alpha (XQ.neg (child (O.push b m) (XQ.neg alpha) (t + 1)).1))
            (child (O.push b m) (XQ.neg alpha) (t + 1)).2 from
        by simp [idRootLoop, hc]]
      rcases ih (if XQ.lt bv (XQ.neg (child (O.push b m) (XQ.neg alpha) (t + 1)).1) then some m
          else best)
          (XQ.max bv (XQ.neg (child (O.push b m) (XQ.neg alpha) (t + 1)).1))
          (XQ.max alpha (XQ.neg (child (O.push b m) (XQ.neg alpha) (t + 1)).1))
          (child (O.push b m) (XQ.neg alpha) (t + 1)).2 with h | ⟨m', hm', h⟩
      · rw [h]
        split_ifs with hlt
        · exact Or.inr ⟨m, List.mem_cons_self m ms, rfl⟩
        · exact Or.inl rfl
      · exact Or.inr ⟨m', List.mem_cons_of_mem m hm', h⟩

/-- The depth loop of the iterative-deepening engine keeps returning a
legal move once it holds one. -/
theorem idDepthLoop_keeps {B M : Type} (O : Chess B M) (ev : B → ℚ)
    (clock : Nat → Bool) (b : B) :
    ∀ (ds : List Nat) (best : Option M) (t : Nat),
      (∃ m ∈ O.legalMoves b, best = some m) →
      ∃ m ∈ O.legalMoves b, (idDepthLoop O ev clock b ds best t).1 = some m := by
  intro ds
  induction ds with
  | nil => intro best t h; exact h
  | cons d ds ih =>
    intro best t h
    by_cases hc : clock t = true
    · rw [show idDepthLoop O ev clock b (d :: ds) best t = (best, t + 1) from
        by simp [idDepthLoop, hc]]
      exact h
    · rw [show idDepthLoop O ev clock b (d :: ds) best t =
          idDepthLoop O ev clock b ds
            (match (idRootScan O ev clock d b (t + 1)).1.2 with
              | some m => some m
              | none => best)
            (idRootScan O ev clock d b (t + 1)).2 from
        by simp [idDepthLoop, hc]]
      apply ih
      rcases idRootLoop_result O clock _ b (O.legalMoves b) none .negInf .negInf (t + 1)
        with h2 | ⟨m', hm', h2⟩
      · rw [show (idRootScan O ev clock d b (t + 1)).1.2 =
            (idRootLoop O clock
              (fun b1 a1 t1 => idAlphabeta O ev clock (d - 1) b1 .negInf a1 t1) b
              (O.legalMoves b) none .negInf .negInf (t + 1)).1.2 from rfl, h2]
        exact h
      · rw [show (idRootScan O ev clock d b (t + 1)).1.2 =
            (idRootLoop O clock
              (fun b1 a1 t1 => idAlphabeta O ev clock (d - 1) b1 .negInf a1 t1) b
              (O.legalMoves b) none .negInf .negInf (t + 1)).1.2 from rfl, h2]
        exact ⟨m', hm', rfl⟩

/-- A root scan whose first time poll passes and whose child search
always produces a finite value selects some scanned move. -/
theorem idRootLoop_some_of_first {B M : Type} (O : Chess B M) (clock : Nat → Bool)
    (child : B → XQ → Nat → XQ × Nat) (b : B)
    (hfin : ∀ (b1 : B) (a1 : XQ) (t1 : Nat), ∃ q, (child b1 a1 t1).1 = XQ.fin q) :
    ∀ (m : M) (ms : List M) (t : Nat), clock t = false →
      ∃ m' ∈ m :: ms,
        (idRootLoop O clock child b (m :: ms) none .negInf .negInf t).1.2 = some m' := by
  intro m ms t hc
  obtain ⟨q, hq⟩ := hfin (O.push b m) XQ.posInf (t + 1)
  rw [show idRootLoop O clock child b (m :: ms) none .negInf .negInf t =
      idRootLoop O clock child b ms (some m)
        (XQ.max .negInf (XQ.neg (child (O.push b m) XQ.posInf (t + 1)).1))
        (XQ.max .negInf (XQ.neg (child (O.push b m) XQ.posInf (t + 1)).1))
        (child (O.push b m) XQ.posInf (t + 1)).2 from by
    simp [idRootLoop, hc, hq, XQ.neg, XQ.lt]]
  rcases idRootLoop_result O clock child b ms (some m)
      (XQ.max .negInf (XQ.neg (child (O.push b m) XQ.posInf (t + 1)).1))
      (XQ.max .negInf (XQ.neg (child (O.push b m) XQ.posInf (t + 1)).1))
      (child (O.push b m) XQ.posInf (t + 1)).2 with h | ⟨m', hm', h⟩
  · exact ⟨m, List.mem_cons_self m ms, h⟩
  · exact ⟨m', List.mem_cons_of_mem m hm', h⟩

/-- C2 (amended).  IterativeDeepeningEngine.get_move keeps the best move
found so far at an interrupted depth (the partial scan overwrites the
previous depth whenever it examined at least one root move); it returns
some legal move, never none, whenever the clock lets the depth loop start
and lets the first root move of depth 1 be searched - in particular
whenever at least one depth completed before the budget expired. -/
theorem iterative_deepening_returns_legal {B M : Type} (O : Chess B M) (ev : B → ℚ)
    (clock : Nat → Bool) (maxDepth : Nat) (b : B)
    (hgo : O.isGameOver b = false) (hd : 1 ≤ maxDepth)
    (hms : O.legalMoves b ≠ [])
    (hc0 : clock 0 = false) (hc1 : clock 1 = false) :
    ∃ m ∈ O.legalMoves b, idGetMove O ev clock maxDepth b = some m := by
  obtain ⟨k, rfl⟩ : ∃ k, maxDepth = k + 1 := ⟨maxDepth - 1, (Nat.succ_pred_eq_of_pos hd).symm⟩
  obtain ⟨m0, rest, hsplit⟩ := List.exists_cons_of_ne_nil hms
  simp only [idGetMove, hgo, Bool.false_eq_true, if_false]
  rw [List.range_succ_eq_map, List.map_cons]
  rw [show idDepthLoop O ev clock b
        ((0 + 1) :: ((List.range k).map Nat.succ).map (· + 1)) none 0 =
      idDepthLoop O ev clock b (((List.range k).map Nat.succ).map (· + 1))
        (match (idRootScan O ev clock (0 + 1) b 1).1.2 with
          | some m => some m
          | none => none)
        (idRootScan O ev clock (0 + 1) b 1).2 from by
    simp [idDepthLoop, hc0]]
  apply idDepthLoop_keeps
  have hfin : ∀ (b1 : B) (a1 : XQ) (t1 : Nat),
      ∃ q, (idAlphabeta O ev clock (0 + 1 - 1) b1 .negInf a1 t1).1 = XQ.fin q :=
    fun b1 a1 t1 => ⟨ev b1 * (if O.turn b1 then 1 else -1), rfl⟩
  have hscan : ∃ m ∈ O.legalMoves b, (idRootScan O ev clock (0 + 1) b 1).1.2 = some m := by
    rw [show idRootScan O ev clock (0 + 1) b 1 =
        idRootLoop O clock
          (fun b1 a1 t1 => idAlphabeta O ev clock (0 + 1 - 1) b1 .negInf a1 t1) b
          (O.legalMoves b) none .negInf .negInf 1 from rfl]
    rw [hsplit]
    have := idRootLoop_some_of_first O clock
      (fun b1 a1 t1 => idAlphabeta O ev clock (0 + 1 - 1) b1 .negInf a1 t1) b
      hfin m0 rest 1 hc1
    rcases this with ⟨m', hm', h⟩
    exact ⟨m', hm', h⟩
  rcases hscan with ⟨m, hm, h⟩
  exact ⟨m, hm, by rw [h]⟩

/-- C2 counterexample to the claim as stated: with the concrete schedule
the depth-1 scan completes (it ends at tick 3, the budget expires at tick
5) and finds move 1, the depth-2 scan is interrupted after examining only
move 0, and get_move returns move 0 - the partial depth-2 result is kept,
not discarded in favour of the completed depth-1 move. -/
theorem iterative_deepening_partial_kept :
    (idRootScan oracleID evID clockID 1 [] 1).1.2 = some 1
    ∧ (idRootScan oracleID evID clockID 1 [] 1).2 = 3
    ∧ clockID 3 = false ∧ clockID 4 = false ∧ clockID 5 = true
    ∧ idGetMove oracleID evID clockID 3 [] = some 0
    ∧ (some 0 : Option Nat) ≠ some 1 := by
  refine ⟨?_, ?_, rfl, rfl, rfl, ?_, by decide⟩ <;>
    norm_num [idGetMove, idDepthLoop, idRootScan, idRootLoop, idAlphabeta, idAbLoop,
      oracleID, histChess, evID, clockID, XQ.neg, XQ.max, XQ.min, XQ.lt, XQ.le]

/-- C2 witness: the amended return guarantee instantiated on the concrete
two-move oracle and schedule. -/
theorem iterative_deepening_returns_legal_witness :
    oracleID.isGameOver [] = false ∧ 1 ≤ 3 ∧ oracleID.legalMoves [] ≠ []
    ∧ clockID 0 = false ∧ clockID 1 = false
    ∧ ∃ m ∈ oracleID.legalMoves [], idGetMove oracleID evID clockID 3 [] = some m :=
  ⟨rfl, by omega, by decide, rfl, rfl,
   iterative_deepening_returns_legal oracleID evID clockID 3 [] rfl (by omega)
     (by decide) rfl rfl⟩

/-- Python max over a nonempty list returns one of its elements. -/
theorem pyMaxBy_mem {α : Type} (ltKey : α → α → Bool) :
    ∀ (i : Nat) (x : α) (l : List α),
      (pyMaxBy ltKey i x l).2 = x ∨ (pyMaxBy ltKey i x l).2 ∈ l := by
  intro i x l
  induction l generalizing i x with
  | nil => exact Or.inl rfl
  | cons y ys ih =>
    simp only [pyMaxBy]
    split
    · rcases ih (i + 1) y with h | h
      · exact Or.inr (by rw [h]; exact List.mem_cons_self y ys)
      · exact Or.inr (List.mem_cons_of_mem y h)
    · exact Or.inl rfl

/-- One MCTS iteration never changes the move that created the node it
starts from. -/
theorem mctsIterate_mv {B M R : Type} (O : Chess B M) (rnd : MctsRand M R) (num : MctsNum)
    (fuel : Nat) :
    ∀ (n : MNode B M) (r : R), ((mctsIterate O rnd num fuel n r).1.1).mv = n.mv := by
  intro n r
  rcases n with ⟨b, mv, untried, children, wins, visits⟩
  cases untried with
  | nil =>
    cases children with
    | nil => simp [mctsIterate, MNode.mv]
    | cons c0 cs => simp [mctsIterate, MNode.mv]
  | cons u us =>
    rcases hrev : (u :: us).reverse with _ | ⟨m, restRev⟩
    · exact absurd hrev (by simp)
    · simp [mctsIterate, hrev, MNode.mv]

/-- One MCTS iteration leaves a node with children whenever it entered
with untried moves or children (expansion appends, selection replaces in
place). -/
theorem mctsIterate_children_ne {B M R : Type} (O : Chess B M) (rnd : MctsRand M R)
    (num : MctsNum) (fuel : Nat) :
    ∀ (n : MNode B M) (r : R), (n.untried ≠ [] ∨ n.children ≠ []) →
      (mctsIterate O rnd num fuel n r).1.1.children ≠ [] := by
  intro n r h
  rcases n with ⟨b, mv, untried, children, wins, visits⟩
  cases untried with
  | nil =>
    cases children with
    | nil => simp [MNode.untried, MNode.children] at h
    | cons c0 cs =>
      simp only [mctsIterate, MNode.children]
      simp [List.set_eq_nil]
  | cons u us =>
    rcases hrev : (u :: us).reverse with _ | ⟨m, restRev⟩
    · exact absurd hrev (by simp)
    · simp [mctsIterate, hrev, MNode.children]

/-- Every child of a node carries the move that created it; one MCTS
iteration preserves this. -/
theorem mctsIterate_children_some {B M R : Type} (O : Chess B M) (rnd : MctsRand M R)
    (num : MctsNum) (fuel : Nat) :
    ∀ (n : MNode B M) (r : R),
      (∀ c ∈ n.children, (MNode.mv c).isSome = true) →
      ∀ c ∈ (mctsIterate O rnd num fuel n r).1.1.children, (MNode.mv c).isSome = true := by
  intro n r
  rcases n with ⟨b, mv, untried, children, wins, visits⟩
  cases untried with
  | nil =>
    cases children with
    | nil =>
      intro h c hc
      simp only [mctsIterate, MNode.children] at hc
      exact h c (by simpa [MNode.children] using hc)
    | cons c0 cs =>
      intro h c hc
      simp only [MNode.children] at h
      simp only [mctsIterate, MNode.children] at hc
      rcases List.mem_or_eq_of_mem_set hc with hmem | rfl
      · exact h c hmem
      · rw [mctsIterate_mv]
        exact h _ (Subtype.prop _)
  | cons u us =>
    intro h c hc
    simp only [MNode.children] at h
    rcases hrev : (u :: us).reverse with _ | ⟨m, restRev⟩
    · exact absurd hrev (by simp)
    · simp only [mctsIterate, hrev, MNode.children] at hc
      rcases List.mem_append.mp hc with hmem | hone
      · exact h c hmem
      · rw [List.mem_singleton.mp hone]
        rfl

/-- The MCTS simulation loop preserves having children. -/
theorem mctsLoop_children_ne {B M R : Type} (O : Chess B M) (rnd : MctsRand M R)
    (num : MctsNum) (fuel : Nat) :
    ∀ (k : Nat) (n : MNode B M) (r : R), n.children ≠ [] →
      (mctsLoop O rnd num fuel k n r).1.children ≠ [] := by
  intro k
  induction k with
  | zero => intro n r h; exact h
  | succ k ih =>
    intro n r h
    simp only [mctsLoop]
    exact ih _ _ (mctsIterate_children_ne O rnd num fuel n r (Or.inr h))

/-- The MCTS simulation loop preserves that all children carry moves. -/
theorem mctsLoop_children_some {B M R : Type} (O : Chess B M) (rnd : MctsRand M R)
    (num : MctsNum) (fuel : Nat) :
    ∀ (k : Nat) (n : MNode B M) (r : R),
      (∀ c ∈ n.children, (MNode.mv c).isSome = true) →
      ∀ c ∈ (mctsLoop O rnd num fuel k n r).1.children, (MNode.mv c).isSome = true := by
  intro k
  induction k with
  | zero => intro n r h; exact h
  | succ k ih =>
    intro n r h
    simp only [mctsLoop]
    exact ih _ _ (mctsIterate_children_some O rnd num fuel n r h)

/-- C7 (amended).  MCTSEngine.get_move returns none immediately, running
no simulation, when the position is terminal; when the position is not
terminal and at least one simulation iteration runs, it returns the move
of the first root child with the highest visit count, which is some
legal-move option (not none).  With zero iterations it returns none even
for a non-terminal position, since the root has no children yet. -/
theorem mcts_get_move_spec {B M R : Type} (O : Chess B M) (rnd : MctsRand M R)
    (num : MctsNum) (fuel iters : Nat) (b : B) (r : R)
    (hsh : ∀ (r1 : R) (l : List M), l ≠ [] → (rnd.shuffle r1 l).1 ≠ []) :
    (O.isGameOver b = true → mctsGetMove O rnd num fuel iters b r = none)
    ∧ (O.isGameOver b = false → O.legalMoves b ≠ [] → 1 ≤ iters →
        ∃ c0 cs, (mctsLoop O rnd num fuel iters (mkMNode O rnd b none r).1
            (mkMNode O rnd b none r).2).1.children = c0 :: cs
          ∧ mctsGetMove O rnd num fuel iters b r =
              (pyMaxBy (fun a c => decide (a.visits < c.visits)) 0 c0 cs).2.mv
          ∧ (mctsGetMove O rnd num fuel iters b r).isSome = true) := by
  constructor
  · intro h
    simp [mctsGetMove, h]
  · intro hgo hms hit
    obtain ⟨k, rfl⟩ : ∃ k, iters = k + 1 := ⟨iters - 1, (Nat.succ_pred_eq_of_pos hit).symm⟩
    have huntried : (mkMNode O rnd b none r).1.untried ≠ [] := by
      simpa [mkMNode, MNode.untried] using hsh r (O.legalMoves b) hms
    have h2 : (mctsLoop O rnd num fuel (k + 1) (mkMNode O rnd b none r).1
        (mkMNode O rnd b none r).2).1.children ≠ [] := by
      simp only [mctsLoop]
      exact mctsLoop_children_ne O rnd num fuel k _ _
        (mctsIterate_children_ne O rnd num fuel _ _ (Or.inl huntried))
    obtain ⟨c0, cs, hcc⟩ := List.exists_cons_of_ne_nil h2
    have hEq : mctsGetMove O rnd num fuel (k + 1) b r =
        (pyMaxBy (fun a c => decide (a.visits < c.visits)) 0 c0 cs).2.mv := by
      simp only [mctsGetMove, hgo, Bool.false_eq_true, if_false, hcc]
    have hall : ∀ c ∈ (mctsLoop O rnd num fuel (k + 1) (mkMNode O rnd b none r).1
        (mkMNode O rnd b none r).2).1.children, (MNode.mv c).isSome = true := by
      apply mctsLoop_children_some
      intro c hc
      simp [mkMNode, MNode.children] at hc
    have hmem : (pyMaxBy (fun a c => decide (a.visits < c.visits)) 0 c0 cs).2 ∈ c0 :: cs := by
      rcases pyMaxBy_mem (fun a c : MNode B M => decide (a.visits < c.visits)) 0 c0 cs
        with h | h
      · rw [h]; exact List.mem_cons_self c0 cs
      · exact List.mem_cons_of_mem c0 h
    refine ⟨c0, cs, hcc, hEq, ?_⟩
    rw [hEq]
    exact hall _ (hcc ▸ hmem)

/-- C7 counterexample to the claim as stated: on a non-terminal position
with a zero simulation budget, get_move returns none rather than the move
of a highest-visit child (no child exists). -/
theorem mcts_zero_iterations_none :
    oracleID.isGameOver [] = false
    ∧ oracleID.legalMoves [] ≠ []
    ∧ mctsGetMove oracleID rndHead numTrivial 5 0 [] 0 = none :=
  ⟨rfl, by decide, rfl⟩

/-- C7 witness: the amended behaviour instantiated on the concrete
two-move oracle, at a terminal board and at the live root with one
iteration. -/
theorem mcts_get_move_spec_witness :
    (∀ (r1 : Nat) (l : List Nat), l ≠ [] → (rndHead.shuffle r1 l).1 ≠ [])
    ∧ oracleID.isGameOver [0] = true
    ∧ mctsGetMove oracleID rndHead numTrivial 5 1 [0] 0 = none
    ∧ oracleID.isGameOver [] = false ∧ oracleID.legalMoves [] ≠ [] ∧ 1 ≤ 1
    ∧ (mctsGetMove oracleID rndHead numTrivial 5 1 [] 0).isSome = true := by
  have hsh : ∀ (r1 : Nat) (l : List Nat), l ≠ [] → (rndHead.shuffle r1 l).1 ≠ [] :=
    fun r1 l h => h
  refine ⟨hsh, rfl,
    (mcts_get_move_spec oracleID rndHead numTrivial 5 1 [0] 0 hsh).1 rfl,
    rfl, by decide, le_refl 1, ?_⟩
  obtain ⟨c0, cs, h1, h2, h3⟩ :=
    (mcts_get_move_spec oracleID rndHead numTrivial 5 1 [] 0 hsh).2 rfl (by decide) (le_refl 1)
  exact h3
